import Mathlib

/-!
Verification of a d-ary min-heap priority queue.

The structure under verification keeps three fields: a fixed arity `d`,
a dense backing list `heap` of items, and an identity-to-index
association `position_map`.  Each item carries an identity (`number`)
and a mutable priority key (`cost`).  Public operations: `insert`,
`pop` (pop_min), `front` (peek_min), `contains`, `increase_priority`,
`decrease_priority`, `size` (len), `is_empty`.  Internal helpers:
`parent`, `children`, `swap`, `bubble_up`, `bubble_down`.

Items are modelled with integer identities and integer costs; the
backing dynamic array is a `List`, out-of-range reads are modelled by
a total read `nthItem` with an arbitrary default (every read performed
by the operations below is in range whenever the well-formedness
invariant `Wf` holds, which is preserved by every operation).  The
dictionary is an association list with unique keys, observed only
through `pfind`/`pset`/`perase`, which satisfy the usual pointwise
dictionary laws.  Errors raised by the operations are returned as
values of `HeapError`, named after the error taxonomy of the design
document (all raise sites in the source are `ValueError`s; the
constructor used at each translated site is the one matching that
site's message).
-/

namespace DaryHeap

/-- An item with identity (`number`) and priority (`cost`). -/
structure Item where
  number : Int
  cost : Int
deriving DecidableEq

/-- The identity-to-index dictionary, as an association list. -/
abbrev PosMap := List (Int × Nat)

/-- Dictionary lookup: first entry with the given key. -/
def pfind : PosMap → Int → Option Nat
  | [], _ => none
  | (k', v) :: rest, k => if k' = k then some v else pfind rest k

/-- Dictionary write `m[k] = v`: replace the entry with key `k`, or append. -/
def pset : PosMap → Int → Nat → PosMap
  | [], k, v => [(k, v)]
  | (k', v') :: rest, k, v =>
      if k' = k then (k, v) :: rest else (k', v') :: pset rest k v

/-- Dictionary deletion `del m[k]`: drop the entries with key `k`. -/
def perase (m : PosMap) (k : Int) : PosMap :=
  m.filter (fun p => p.1 != k)

/-- Error taxonomy for the fallible operations. -/
inductive HeapError where
  | invalidArity
  | duplicateIdentity
  | notFound
  | invalidTransition
deriving DecidableEq

/-- The d-ary min-heap: arity, backing list, identity-to-index map. -/
structure DHeap where
  d : Nat
  heap : List Item
  position_map : PosMap
deriving DecidableEq

/-- Total read of the backing list (all reads made by the operations
are in range on well-formed states). -/
def nthItem (l : List Item) (i : Nat) : Item := (l[i]?).getD ⟨0, 0⟩

/-- Constructor: `DHeap(d)` requires arity at least 2. -/
def DHeap.init (d : Nat) : Except HeapError DHeap :=
  if d < 2 then .error .invalidArity else .ok ⟨d, [], []⟩

/-- `_parent`: parent index of `index`. -/
def DHeap.parent (s : DHeap) (index : Nat) : Nat := (index - 1) / s.d

/-- `_children`: indices of all children of `index`,
`range(start, min(start + d, len(heap)))`. -/
def DHeap.children (s : DHeap) (index : Nat) : List Nat :=
  List.range' (s.d * index + 1) (min (s.d * index + 1 + s.d) s.heap.length - (s.d * index + 1))

/-- The backing-list part of `_swap`: positions `i` and `j` exchanged. -/
def swapL (l : List Item) (i j : Nat) : List Item :=
  (l.set i (nthItem l j)).set j (nthItem l i)

/-- `_swap`: swap items at positions `i` and `j` and update both map entries. -/
def DHeap.swap (s : DHeap) (i j : Nat) : DHeap :=
  { s with
    heap := swapL s.heap i j,
    position_map :=
      pset (pset s.position_map (nthItem s.heap j).number i) (nthItem s.heap i).number j }

theorem swapL_length (l : List Item) (i j : Nat) : (swapL l i j).length = l.length := by
  simp [swapL]

theorem DHeap.swap_length (s : DHeap) (i j : Nat) :
    (s.swap i j).heap.length = s.heap.length := swapL_length _ _ _

theorem DHeap.swap_d (s : DHeap) (i j : Nat) : (s.swap i j).d = s.d := rfl

/-- `_bubble_up`: move the item at `index` rootward while it is strictly
cheaper than its parent. -/
def DHeap.bubble_up (s : DHeap) (index : Nat) : DHeap :=
  if 0 < index then
    if (nthItem s.heap index).cost < (nthItem s.heap (s.parent index)).cost then
      (s.swap index (s.parent index)).bubble_up (s.parent index)
    else s
  else s
termination_by index
decreasing_by
  exact Nat.lt_of_le_of_lt (Nat.div_le_self _ _) (by omega)

/-- First minimum of `b :: ys` under the cost at each index, scanning left
to right and keeping the earlier index on ties (the semantics of
`min(children, key=lambda i: self.heap[i].cost)`). -/
def minIdx (l : List Item) : Nat → List Nat → Nat
  | b, [] => b
  | b, y :: ys => minIdx l (if (nthItem l y).cost < (nthItem l b).cost then y else b) ys

theorem minIdx_mem (l : List Item) (b : Nat) (ys : List Nat) : minIdx l b ys ∈ b :: ys := by
  induction ys generalizing b with
  | nil => simp [minIdx]
  | cons y ys ih =>
      rw [minIdx]
      have h := ih (if (nthItem l y).cost < (nthItem l b).cost then y else b)
      rw [List.mem_cons] at h
      rcases h with h | h
      · rw [h]
        by_cases hc : (nthItem l y).cost < (nthItem l b).cost
        · simp [hc]
        · simp [hc]
      · simp only [List.mem_cons] at h ⊢
        tauto

theorem minIdx_le (l : List Item) : ∀ (ys : List Nat) (b : Nat),
    ∀ y ∈ b :: ys, (nthItem l (minIdx l b ys)).cost ≤ (nthItem l y).cost := by
  intro ys
  induction ys with
  | nil =>
      intro b y hy
      rw [List.mem_singleton] at hy
      rw [hy, minIdx]
  | cons z zs ih =>
      intro b y hy
      rw [minIdx]
      have hb := ih (if (nthItem l z).cost < (nthItem l b).cost then z else b)
      rcases List.mem_cons.mp hy with hy | hy
      · rw [hy]
        have h1 := hb _ (List.mem_cons_self _ _)
        by_cases hc : (nthItem l z).cost < (nthItem l b).cost
        · rw [if_pos hc] at h1 ⊢
          exact h1.trans hc.le
        · rwa [if_neg hc] at h1 ⊢
      · rcases List.mem_cons.mp hy with hy | hy
        · rw [hy]
          have h1 := hb _ (List.mem_cons_self _ _)
          by_cases hc : (nthItem l z).cost < (nthItem l b).cost
          · rwa [if_pos hc] at h1 ⊢
          · rw [if_neg hc] at h1 ⊢
            exact h1.trans (le_of_not_lt hc)
        · exact hb _ (List.mem_cons_of_mem _ hy)

theorem mem_children {s : DHeap} {i j : Nat} (h : j ∈ s.children i) :
    s.d * i + 1 ≤ j ∧ j < s.heap.length ∧ j ≤ s.d * i + s.d ∧ i < j ∧ 1 ≤ s.d := by
  unfold DHeap.children at h
  rw [List.mem_range'_1] at h
  have h1 : 1 ≤ s.d := by omega
  have h2 : i ≤ s.d * i := Nat.le_mul_of_pos_left i h1
  omega

theorem children_iff {s : DHeap} (hd : 1 ≤ s.d) {i j : Nat} :
    j ∈ s.children i ↔ (0 < j ∧ j < s.heap.length ∧ (j - 1) / s.d = i) := by
  unfold DHeap.children
  rw [List.mem_range'_1]
  constructor
  · intro h
    have h2 : i ≤ s.d * i := Nat.le_mul_of_pos_left i hd
    refine ⟨by omega, by omega, ?_⟩
    have hub : j - 1 < (i + 1) * s.d := by
      have : (i + 1) * s.d = s.d * i + s.d := by ring
      omega
    have hlb : i * s.d ≤ j - 1 := by
      have : i * s.d = s.d * i := by ring
      omega
    have hu := (Nat.div_lt_iff_lt_mul hd).mpr hub
    have hl := (Nat.le_div_iff_mul_le hd).mpr hlb
    omega
  · rintro ⟨hj0, hjn, hpar⟩
    have hub : (j - 1) / s.d < i + 1 := by omega
    have hlb : i ≤ (j - 1) / s.d := by omega
    have hu := (Nat.div_lt_iff_lt_mul hd).mp hub
    have hl := (Nat.le_div_iff_mul_le hd).mp hlb
    have e1 : i * s.d = s.d * i := by ring
    have e2 : (i + 1) * s.d = s.d * i + s.d := by ring
    omega

/-- `_bubble_down`: move the item at `index` leafward while it is strictly
costlier than its cheapest child. -/
def DHeap.bubble_down (s : DHeap) (index : Nat) : DHeap :=
  if hc : s.children index = [] then s
  else
    if (nthItem s.heap index).cost >
        (nthItem s.heap
          (minIdx s.heap ((s.children index).head hc) (s.children index).tail)).cost then
      (s.swap index
          (minIdx s.heap ((s.children index).head hc) (s.children index).tail)).bubble_down
        (minIdx s.heap ((s.children index).head hc) (s.children index).tail)
    else s
termination_by s.heap.length - index
decreasing_by
  have hmem : minIdx s.heap ((s.children index).head hc) (s.children index).tail ∈
      s.children index := by
    have := minIdx_mem s.heap ((s.children index).head hc) (s.children index).tail
    rwa [List.head_cons_tail] at this
  have := mem_children hmem
  rw [DHeap.swap_length]
  omega

/-- `insert`: reject a duplicate identity, else append and bubble up. -/
def DHeap.insert (s : DHeap) (item : Item) : Except HeapError DHeap :=
  if (pfind s.position_map item.number).isSome then
    .error .duplicateIdentity
  else
    (DHeap.bubble_up
      { s with
        heap := s.heap ++ [item],
        position_map := pset s.position_map item.number ((s.heap ++ [item]).length - 1) }
      ((s.heap ++ [item]).length - 1)) |> .ok

/-- `pop`: remove and return the minimum item, or `none` when empty. -/
def DHeap.pop (s : DHeap) : Option Item × DHeap :=
  match s.heap with
  | [] => (none, s)
  | _ :: _ =>
    if s.heap.dropLast.isEmpty then
      (some (nthItem s.heap 0),
        { s with heap := s.heap.dropLast,
                 position_map := perase s.position_map (nthItem s.heap 0).number })
    else
      (some (nthItem s.heap 0),
        DHeap.bubble_down
          { s with
            heap := s.heap.dropLast.set 0 (nthItem s.heap (s.heap.length - 1)),
            position_map :=
              pset (perase s.position_map (nthItem s.heap 0).number)
                (nthItem s.heap (s.heap.length - 1)).number 0 }
          0)

/-- `front`: the minimum item without removal, or `none` when empty. -/
def DHeap.front (s : DHeap) : Option Item :=
  match s.heap with
  | [] => none
  | x :: _ => some x

/-- `increase_priority`: strictly lower the cost of an existing item. -/
def DHeap.increase_priority (s : DHeap) (item : Item) : Except HeapError DHeap :=
  match pfind s.position_map item.number with
  | none => .error .notFound
  | some index =>
      if item.cost < (nthItem s.heap index).cost then
        (DHeap.bubble_up
          { s with heap := s.heap.set index ⟨(nthItem s.heap index).number, item.cost⟩ }
          index) |> .ok
      else .error .invalidTransition

/-- `decrease_priority`: strictly raise the cost of an existing item. -/
def DHeap.decrease_priority (s : DHeap) (item : Item) : Except HeapError DHeap :=
  match pfind s.position_map item.number with
  | none => .error .notFound
  | some index =>
      if item.cost > (nthItem s.heap index).cost then
        (DHeap.bubble_down
          { s with heap := s.heap.set index ⟨(nthItem s.heap index).number, item.cost⟩ }
          index) |> .ok
      else .error .invalidTransition

/-- `contains`: membership of the item's identity. -/
def DHeap.contains (s : DHeap) (item : Item) : Bool :=
  (pfind s.position_map item.number).isSome

/-- `__len__`: number of items. -/
def DHeap.size (s : DHeap) : Nat := s.heap.length

/-- `is_empty`: whether the heap has no items. -/
def DHeap.is_empty (s : DHeap) : Bool := s.heap.length == 0

/-- Heap-order invariant: every non-root position costs at least its parent. -/
def heapOrder (d : Nat) (l : List Item) : Prop :=
  ∀ j, j < l.length → 0 < j → (nthItem l ((j - 1) / d)).cost ≤ (nthItem l j).cost

/-- Map-consistency invariant: the map sends the identity at each position
to that position, and every map entry's key is a stored identity. -/
def mapOk (l : List Item) (m : PosMap) : Prop :=
  (∀ i, i < l.length → pfind m (nthItem l i).number = some i) ∧
  (∀ p ∈ m, ∃ i, i < l.length ∧ (nthItem l i).number = p.1)

/-- Well-formedness: valid arity, heap order, and map consistency. -/
def DHeap.Wf (s : DHeap) : Prop :=
  2 ≤ s.d ∧ heapOrder s.d s.heap ∧ mapOk s.heap s.position_map

instance (d : Nat) (l : List Item) : Decidable (heapOrder d l) := by
  unfold heapOrder; infer_instance

instance (l : List Item) (m : PosMap) : Decidable (mapOk l m) := by
  unfold mapOk; infer_instance

instance (s : DHeap) : Decidable s.Wf := by
  unfold DHeap.Wf; infer_instance

/-- View of the cost stored for an identity, read through the map. -/
def DHeap.costOf (s : DHeap) (k : Int) : Option Int :=
  (pfind s.position_map k).map (fun i => (nthItem s.heap i).cost)

theorem nthItem_set_self {l : List Item} {i : Nat} (h : i < l.length) (x : Item) :
    nthItem (l.set i x) i = x := by
  unfold nthItem
  rw [List.getElem?_set_self h]
  rfl

theorem nthItem_set_ne {l : List Item} {i j : Nat} (h : i ≠ j) (x : Item) :
    nthItem (l.set i x) j = nthItem l j := by
  unfold nthItem
  rw [List.getElem?_set_ne h]

theorem nthItem_append_lt {l : List Item} {j : Nat} (h : j < l.length) (x : Item) :
    nthItem (l ++ [x]) j = nthItem l j := by
  unfold nthItem
  rw [List.getElem?_append_left h]

theorem nthItem_append_len (l : List Item) (x : Item) :
    nthItem (l ++ [x]) l.length = x := by
  unfold nthItem
  rw [List.getElem?_concat_length]
  rfl

theorem nthItem_dropLast {l : List Item} {j : Nat} (h : j < l.length - 1) :
    nthItem l.dropLast j = nthItem l j := by
  unfold nthItem
  rw [List.dropLast_eq_take, List.getElem?_take, if_pos h]

theorem nthItem_mem {l : List Item} {i : Nat} (h : i < l.length) : nthItem l i ∈ l := by
  unfold nthItem
  rw [List.getElem?_eq_getElem h]
  exact List.getElem_mem h

theorem mem_iff_nthItem {l : List Item} {x : Item} :
    x ∈ l ↔ ∃ i, i < l.length ∧ nthItem l i = x := by
  constructor
  · intro hx
    rcases List.mem_iff_get.mp hx with ⟨n, hn⟩
    refine ⟨n.1, n.2, ?_⟩
    unfold nthItem
    rw [List.getElem?_eq_getElem n.2]
    simpa [List.get_eq_getElem] using hn
  · rintro ⟨i, hi, rfl⟩
    exact nthItem_mem hi

theorem pfind_pset_self (m : PosMap) (k : Int) (v : Nat) : pfind (pset m k v) k = some v := by
  induction m with
  | nil => simp [pset, pfind]
  | cons p rest ih =>
      obtain ⟨k0, v0⟩ := p
      by_cases h : k0 = k
      · simp [pset, h, pfind]
      · simp [pset, h, pfind, ih]

theorem pfind_pset_ne (m : PosMap) {k k' : Int} (h : k' ≠ k) (v : Nat) :
    pfind (pset m k v) k' = pfind m k' := by
  induction m with
  | nil => simp [pset, pfind, Ne.symm h]
  | cons p rest ih =>
      obtain ⟨k0, v0⟩ := p
      by_cases h0 : k0 = k
      · subst h0
        simp [pset, pfind, Ne.symm h]
      · by_cases h1 : k0 = k'
        · simp [pset, h0, pfind, h1, h]
        · simp [pset, h0, pfind, h1, ih]

theorem pfind_perase_self (m : PosMap) (k : Int) : pfind (perase m k) k = none := by
  induction m with
  | nil => rfl
  | cons p rest ih =>
      obtain ⟨k0, v0⟩ := p
      rw [perase, List.filter_cons]
      by_cases h : k0 = k
      · simpa [h] using ih
      · simpa [h, pfind] using ih

theorem pfind_perase_ne (m : PosMap) {k k' : Int} (h : k' ≠ k) :
    pfind (perase m k) k' = pfind m k' := by
  induction m with
  | nil => rfl
  | cons p rest ih =>
      obtain ⟨k0, v0⟩ := p
      rw [perase, List.filter_cons]
      by_cases h0 : k0 = k
      · subst h0
        simpa [pfind, Ne.symm h] using ih
      · by_cases h1 : k0 = k'
        · simp [h0, pfind, h1, h]
        · simpa [h0, pfind, h1] using ih

theorem mem_pset {m : PosMap} {k : Int} {v : Nat} {p : Int × Nat} (h : p ∈ pset m k v) :
    p = (k, v) ∨ p ∈ m := by
  induction m with
  | nil => simpa [pset] using h
  | cons q rest ih =>
      obtain ⟨k0, v0⟩ := q
      by_cases h0 : k0 = k
      · rw [pset, if_pos h0] at h
        rcases List.mem_cons.mp h with h | h
        · exact Or.inl h
        · exact Or.inr (List.mem_cons_of_mem _ h)
      · rw [pset, if_neg h0] at h
        rcases List.mem_cons.mp h with h | h
        · exact Or.inr (h ▸ List.mem_cons_self _ _)
        · rcases ih h with h | h
          · exact Or.inl h
          · exact Or.inr (List.mem_cons_of_mem _ h)

theorem mem_perase {m : PosMap} {k : Int} {p : Int × Nat} (h : p ∈ perase m k) :
    p ∈ m ∧ p.1 ≠ k := by
  have := List.mem_filter.mp h
  exact ⟨this.1, by simpa [bne_iff_ne] using this.2⟩

theorem pfind_isSome_mem {m : PosMap} {k : Int} (h : (pfind m k).isSome) :
    ∃ v, (k, v) ∈ m := by
  induction m with
  | nil => simp [pfind] at h
  | cons q rest ih =>
      obtain ⟨k0, v0⟩ := q
      by_cases h0 : k0 = k
      · exact ⟨v0, by rw [h0]; exact List.mem_cons_self _ _⟩
      · rw [pfind, if_neg h0] at h
        rcases ih h with ⟨v, hv⟩
        exact ⟨v, List.mem_cons_of_mem _ hv⟩

theorem mapOk_find_char {l : List Item} {m : PosMap} (hm : mapOk l m) {k : Int} {q : Nat}
    (h : pfind m k = some q) : q < l.length ∧ (nthItem l q).number = k := by
  have hs : (pfind m k).isSome := by rw [h]; rfl
  rcases pfind_isSome_mem hs with ⟨v, hv⟩
  rcases hm.2 _ hv with ⟨i, hi, hnum⟩
  have := hm.1 i hi
  rw [hnum] at this
  rw [this] at h
  cases h
  exact ⟨hi, hnum⟩

theorem DHeap.swap_nth_left {s : DHeap} {i j : Nat} (hi : i < s.heap.length) (hij : i ≠ j) :
    nthItem (s.swap i j).heap i = nthItem s.heap j := by
  show nthItem (swapL s.heap i j) i = nthItem s.heap j
  unfold swapL
  rw [nthItem_set_ne (Ne.symm hij), nthItem_set_self hi]

theorem DHeap.swap_nth_right {s : DHeap} {i j : Nat} (hj : j < s.heap.length) :
    nthItem (s.swap i j).heap j = nthItem s.heap i := by
  show nthItem (swapL s.heap i j) j = nthItem s.heap i
  unfold swapL
  rw [nthItem_set_self (by simpa using hj)]

theorem DHeap.swap_nth_other {s : DHeap} {i j q : Nat} (hqi : q ≠ i) (hqj : q ≠ j) :
    nthItem (s.swap i j).heap q = nthItem s.heap q := by
  show nthItem (swapL s.heap i j) q = nthItem s.heap q
  unfold swapL
  rw [nthItem_set_ne (Ne.symm hqj), nthItem_set_ne (Ne.symm hqi)]

theorem DHeap.swap_numbers_ne {s : DHeap} {i j : Nat} (hm : mapOk s.heap s.position_map)
    (hi : i < s.heap.length) (hj : j < s.heap.length) (hij : i ≠ j) :
    (nthItem s.heap i).number ≠ (nthItem s.heap j).number := by
  intro hc
  have h1 := hm.1 i hi
  have h2 := hm.1 j hj
  rw [hc] at h1
  rw [h1] at h2
  exact hij (Option.some.inj h2)

theorem DHeap.swap_mapOk {s : DHeap} {i j : Nat} (hm : mapOk s.heap s.position_map)
    (hi : i < s.heap.length) (hj : j < s.heap.length) (hij : i ≠ j) :
    mapOk (s.swap i j).heap (s.swap i j).position_map := by
  have hab := DHeap.swap_numbers_ne hm hi hj hij
  constructor
  · intro p hp
    rw [DHeap.swap_length] at hp
    show pfind (pset (pset s.position_map (nthItem s.heap j).number i)
      (nthItem s.heap i).number j) (nthItem (s.swap i j).heap p).number = some p
    by_cases hpi : p = i
    · subst hpi
      rw [DHeap.swap_nth_left hi hij, pfind_pset_ne _ (Ne.symm hab), pfind_pset_self]
    · by_cases hpj : p = j
      · subst hpj
        rw [DHeap.swap_nth_right hj, pfind_pset_self]
      · rw [DHeap.swap_nth_other hpi hpj]
        have hp1 := hm.1 p hp
        have hne_a : (nthItem s.heap p).number ≠ (nthItem s.heap i).number :=
          DHeap.swap_numbers_ne hm hp hi hpi
        have hne_b : (nthItem s.heap p).number ≠ (nthItem s.heap j).number :=
          DHeap.swap_numbers_ne hm hp hj hpj
        rw [pfind_pset_ne _ hne_a, pfind_pset_ne _ hne_b]
        exact hp1
  · intro p hp
    rcases mem_pset hp with hp | hp
    · refine ⟨j, by rw [DHeap.swap_length]; exact hj, ?_⟩
      rw [DHeap.swap_nth_right hj, hp]
    · rcases mem_pset hp with hp | hp
      · refine ⟨i, by rw [DHeap.swap_length]; exact hi, ?_⟩
        rw [DHeap.swap_nth_left hi hij, hp]
      · rcases hm.2 _ hp with ⟨q, hq, hnum⟩
        by_cases hqi : q = i
        · subst hqi
          refine ⟨j, by rw [DHeap.swap_length]; exact hj, ?_⟩
          rw [DHeap.swap_nth_right hj]
          exact hnum
        · by_cases hqj : q = j
          · subst hqj
            refine ⟨i, by rw [DHeap.swap_length]; exact hi, ?_⟩
            rw [DHeap.swap_nth_left hi hij]
            exact hnum
          · refine ⟨q, by rw [DHeap.swap_length]; exact hq, ?_⟩
            rw [DHeap.swap_nth_other hqi hqj]
            exact hnum

theorem DHeap.swap_costOf {s : DHeap} {i j : Nat} (hm : mapOk s.heap s.position_map)
    (hi : i < s.heap.length) (hj : j < s.heap.length) (hij : i ≠ j) (k : Int) :
    (s.swap i j).costOf k = s.costOf k := by
  have hab := DHeap.swap_numbers_ne hm hi hj hij
  unfold DHeap.costOf
  show ((pfind (pset (pset s.position_map (nthItem s.heap j).number i)
      (nthItem s.heap i).number j) k).map fun q => (nthItem (s.swap i j).heap q).cost) = _
  by_cases hka : k = (nthItem s.heap i).number
  · subst hka
    rw [pfind_pset_self, hm.1 i hi]
    simp [DHeap.swap_nth_right hj]
  · by_cases hkb : k = (nthItem s.heap j).number
    · subst hkb
      rw [pfind_pset_ne _ hka, pfind_pset_self, hm.1 j hj]
      simp [DHeap.swap_nth_left hi hij]
    · rw [pfind_pset_ne _ hka, pfind_pset_ne _ hkb]
      cases hfind : pfind s.position_map k with
      | none => rfl
      | some q =>
          rcases mapOk_find_char hm hfind with ⟨hq, hnum⟩
          have hqi : q ≠ i := by rintro rfl; exact hka hnum.symm
          have hqj : q ≠ j := by rintro rfl; exact hkb hnum.symm
          simp [DHeap.swap_nth_other hqi hqj]

theorem DHeap.swap_mem {s : DHeap} {i j : Nat} (hi : i < s.heap.length)
    (hj : j < s.heap.length) (hij : i ≠ j) {x : Item} :
    x ∈ (s.swap i j).heap ↔ x ∈ s.heap := by
  constructor
  · intro hx
    show x ∈ s.heap
    have hx' : x ∈ swapL s.heap i j := hx
    unfold swapL at hx'
    rcases List.mem_or_eq_of_mem_set hx' with hx' | hx'
    · rcases List.mem_or_eq_of_mem_set hx' with hx' | hx'
      · exact hx'
      · exact hx' ▸ nthItem_mem hj
    · exact hx' ▸ nthItem_mem hi
  · intro hx
    rcases mem_iff_nthItem.mp hx with ⟨p, hp, hpx⟩
    by_cases hpi : p = i
    · refine mem_iff_nthItem.mpr ⟨j, by rw [DHeap.swap_length]; exact hj, ?_⟩
      rw [DHeap.swap_nth_right hj, ← hpi]
      exact hpx
    · by_cases hpj : p = j
      · refine mem_iff_nthItem.mpr ⟨i, by rw [DHeap.swap_length]; exact hi, ?_⟩
        rw [DHeap.swap_nth_left hi hij, ← hpj]
        exact hpx
      · refine mem_iff_nthItem.mpr ⟨p, by rw [DHeap.swap_length]; exact hp, ?_⟩
        rw [DHeap.swap_nth_other hpi hpj]
        exact hpx

theorem DHeap.parent_lt (s : DHeap) {i : Nat} (h : 0 < i) : s.parent i < i :=
  Nat.lt_of_le_of_lt (Nat.div_le_self _ _) (by omega)

theorem child_bounds {d : Nat} (hd : 1 ≤ d) {i j : Nat} (h0 : 0 < j)
    (hp : (j - 1) / d = i) : d * i + 1 ≤ j ∧ j ≤ d * i + d := by
  have hub : (j - 1) / d < i + 1 := by omega
  have hlb : i ≤ (j - 1) / d := by omega
  have hu := (Nat.div_lt_iff_lt_mul hd).mp hub
  have hl := (Nat.le_div_iff_mul_le hd).mp hlb
  have e1 : i * d = d * i := by ring
  have e2 : (i + 1) * d = d * i + d := by ring
  omega

theorem child_gt {d : Nat} (hd : 1 ≤ d) {i j : Nat} (h0 : 0 < j)
    (hp : (j - 1) / d = i) : i < j := by
  have hb := child_bounds hd h0 hp
  have h2 : i ≤ d * i := Nat.le_mul_of_pos_left i hd
  omega

/-- Almost-heap invariant for sift-up: heap order may fail only at the edge
from `i` up to its parent, and the children of `i` are already bounded below
by the cost at the parent of `i`. -/
def UpOk (d : Nat) (l : List Item) (i : Nat) : Prop :=
  (∀ j, j < l.length → 0 < j → j ≠ i →
    (nthItem l ((j - 1) / d)).cost ≤ (nthItem l j).cost) ∧
  (0 < i → ∀ j, j < l.length → 0 < j → (j - 1) / d = i →
    (nthItem l ((i - 1) / d)).cost ≤ (nthItem l j).cost)

/-- Almost-heap invariant for sift-down: heap order may fail only on edges
from `i` down to its children, and the children of `i` are already bounded
below by the cost at the parent of `i`. -/
def DownOk (d : Nat) (l : List Item) (i : Nat) : Prop :=
  (∀ j, j < l.length → 0 < j → (j - 1) / d ≠ i →
    (nthItem l ((j - 1) / d)).cost ≤ (nthItem l j).cost) ∧
  (0 < i → ∀ j, j < l.length → 0 < j → (j - 1) / d = i →
    (nthItem l ((i - 1) / d)).cost ≤ (nthItem l j).cost)

theorem upOk_swap {s : DHeap} {i : Nat} (hd : 1 ≤ s.d) (hpos : 0 < i)
    (hi : i < s.heap.length) (h : UpOk s.d s.heap i)
    (hlt : (nthItem s.heap i).cost < (nthItem s.heap (s.parent i)).cost) :
    UpOk s.d (s.swap i (s.parent i)).heap (s.parent i) := by
  have hplt : s.parent i < i := s.parent_lt hpos
  have hp : s.parent i < s.heap.length := lt_trans hplt hi
  have hij : i ≠ s.parent i := Nat.ne_of_gt hplt
  have hpar : (i - 1) / s.d = s.parent i := rfl
  constructor
  · intro j hj hj0 hjp
    rw [DHeap.swap_length] at hj
    by_cases hji : j = i
    · subst hji
      rw [hpar, DHeap.swap_nth_left hi hij, DHeap.swap_nth_right hp]
      exact hlt.le
    · by_cases hpj : (j - 1) / s.d = i
      · have hgt := child_gt hd hj0 hpj
        rw [hpj, DHeap.swap_nth_left hi hij,
          DHeap.swap_nth_other hji (by omega)]
        exact h.2 hpos j hj hj0 hpj
      · by_cases hpjp : (j - 1) / s.d = s.parent i
        · rw [hpjp, DHeap.swap_nth_right hp, DHeap.swap_nth_other hji hjp]
          have h1 := h.1 j hj hj0 hji
          rw [hpjp] at h1
          exact hlt.le.trans h1
        · rw [DHeap.swap_nth_other hpj hpjp, DHeap.swap_nth_other hji hjp]
          exact h.1 j hj hj0 hji
  · intro hppos j hj hj0 hpj
    rw [DHeap.swap_length] at hj
    have hgp : (s.parent i - 1) / s.d < s.parent i := s.parent_lt hppos
    have hgi : (s.parent i - 1) / s.d ≠ i := by omega
    have hgpp : (s.parent i - 1) / s.d ≠ s.parent i := by omega
    rw [DHeap.swap_nth_other hgi hgpp]
    have hppi : s.parent i ≠ i := Nat.ne_of_lt hplt
    have hpin := h.1 (s.parent i) hp hppos hppi
    by_cases hji : j = i
    · subst hji
      rw [DHeap.swap_nth_left hi hij]
      exact hpin
    · have hgtj := child_gt hd hj0 hpj
      rw [DHeap.swap_nth_other hji (by omega)]
      have h1 := h.1 j hj hj0 hji
      rw [hpj] at h1
      exact hpin.trans h1

theorem downOk_swap {s : DHeap} {i mc : Nat} (hd : 1 ≤ s.d)
    (hmc : mc ∈ s.children i)
    (hmin : ∀ y ∈ s.children i, (nthItem s.heap mc).cost ≤ (nthItem s.heap y).cost)
    (h : DownOk s.d s.heap i)
    (hgt : (nthItem s.heap i).cost > (nthItem s.heap mc).cost) :
    DownOk s.d (s.swap i mc).heap mc := by
  obtain ⟨hmlb, hmn, hmub, himc, hd1⟩ := mem_children hmc
  have hi : i < s.heap.length := lt_trans himc hmn
  have hijne : i ≠ mc := Nat.ne_of_lt himc
  have hmpos : 0 < mc := by omega
  have hmcpar : (mc - 1) / s.d = i :=
    ((children_iff hd).mp hmc).2.2
  constructor
  · intro j hj hj0 hpj
    rw [DHeap.swap_length] at hj
    by_cases hji : j = i
    · rw [hji]
      have hipos : 0 < i := by omega
      have hpilt : (i - 1) / s.d < i := s.parent_lt hipos
      rw [DHeap.swap_nth_left hi hijne,
        DHeap.swap_nth_other (by omega) (by omega)]
      exact h.2 hipos mc hmn hmpos hmcpar
    · by_cases hjm : j = mc
      · rw [hjm, hmcpar, DHeap.swap_nth_left hi hijne, DHeap.swap_nth_right hmn]
        exact hgt.le
      · by_cases hpji : (j - 1) / s.d = i
        · have hjc : j ∈ s.children i := (children_iff hd).mpr ⟨hj0, hj, hpji⟩
          rw [hpji, DHeap.swap_nth_left hi hijne, DHeap.swap_nth_other hji hjm]
          exact hmin j hjc
        · rw [DHeap.swap_nth_other hpji hpj, DHeap.swap_nth_other hji hjm]
          exact h.1 j hj hj0 hpji
  · intro _ j hj hj0 hpj
    rw [DHeap.swap_length] at hj
    have hjgt : mc < j := child_gt hd hj0 hpj
    rw [hmcpar, DHeap.swap_nth_left hi hijne,
      DHeap.swap_nth_other (by omega : j ≠ i) (by omega : j ≠ mc)]
    have h1 := h.1 j hj hj0 (by omega)
    rw [hpj] at h1
    exact h1

theorem DHeap.bubble_up_d (s : DHeap) (i : Nat) : (s.bubble_up i).d = s.d := by
  induction s, i using DHeap.bubble_up.induct with
  | case1 s i hpos hlt ih =>
      rw [DHeap.bubble_up, if_pos hpos, if_pos hlt]
      exact ih.trans rfl
  | case2 s i hpos hlt =>
      rw [DHeap.bubble_up, if_pos hpos, if_neg hlt]
  | case3 s i hpos =>
      rw [DHeap.bubble_up, if_neg hpos]

theorem DHeap.bubble_up_length (s : DHeap) (i : Nat) :
    (s.bubble_up i).heap.length = s.heap.length := by
  induction s, i using DHeap.bubble_up.induct with
  | case1 s i hpos hlt ih =>
      rw [DHeap.bubble_up, if_pos hpos, if_pos hlt]
      exact ih.trans (DHeap.swap_length _ _ _)
  | case2 s i hpos hlt =>
      rw [DHeap.bubble_up, if_pos hpos, if_neg hlt]
  | case3 s i hpos =>
      rw [DHeap.bubble_up, if_neg hpos]

theorem DHeap.bubble_up_map : ∀ (s : DHeap) (i : Nat), i < s.heap.length →
    mapOk s.heap s.position_map →
    mapOk (s.bubble_up i).heap (s.bubble_up i).position_map ∧
    ∀ k, (s.bubble_up i).costOf k = s.costOf k := by
  intro s i
  induction s, i using DHeap.bubble_up.induct with
  | case1 s i hpos hlt ih =>
      intro hi hm
      have hplt : s.parent i < i := s.parent_lt hpos
      have hp : s.parent i < s.heap.length := lt_trans hplt hi
      have hij : i ≠ s.parent i := Nat.ne_of_gt hplt
      have hm' := DHeap.swap_mapOk hm hi hp hij
      have hi' : s.parent i < (s.swap i (s.parent i)).heap.length := by
        rw [DHeap.swap_length]; exact hp
      obtain ⟨hmt, hct⟩ := ih hi' hm'
      rw [DHeap.bubble_up, if_pos hpos, if_pos hlt]
      exact ⟨hmt, fun k => (hct k).trans (DHeap.swap_costOf hm hi hp hij k)⟩
  | case2 s i hpos hlt =>
      intro _ hm
      rw [DHeap.bubble_up, if_pos hpos, if_neg hlt]
      exact ⟨hm, fun _ => rfl⟩
  | case3 s i hpos =>
      intro _ hm
      rw [DHeap.bubble_up, if_neg hpos]
      exact ⟨hm, fun _ => rfl⟩

theorem DHeap.bubble_up_heapOrder : ∀ (s : DHeap) (i : Nat), 1 ≤ s.d →
    i < s.heap.length → UpOk s.d s.heap i → heapOrder s.d (s.bubble_up i).heap := by
  intro s i
  induction s, i using DHeap.bubble_up.induct with
  | case1 s i hpos hlt ih =>
      intro hd hi hup
      rw [DHeap.bubble_up, if_pos hpos, if_pos hlt]
      refine ih hd ?_ ?_
      · rw [DHeap.swap_length]
        exact lt_trans (s.parent_lt hpos) hi
      · exact upOk_swap hd hpos hi hup hlt
  | case2 s i hpos hlt =>
      intro hd hi hup
      rw [DHeap.bubble_up, if_pos hpos, if_neg hlt]
      intro j hj hj0
      by_cases hji : j = i
      · subst hji
        exact le_of_not_lt hlt
      · exact hup.1 j hj hj0 hji
  | case3 s i hpos =>
      intro hd hi hup
      rw [DHeap.bubble_up, if_neg hpos]
      intro j hj hj0
      exact hup.1 j hj hj0 (by omega)

theorem DHeap.bubble_down_d (s : DHeap) (i : Nat) : (s.bubble_down i).d = s.d := by
  induction s, i using DHeap.bubble_down.induct with
  | case1 s i hc =>
      rw [DHeap.bubble_down, dif_pos hc]
  | case2 s i hc hgt ih =>
      rw [DHeap.bubble_down, dif_neg hc, if_pos hgt]
      exact ih.trans rfl
  | case3 s i hc hgt =>
      rw [DHeap.bubble_down, dif_neg hc, if_neg hgt]

theorem DHeap.bubble_down_length (s : DHeap) (i : Nat) :
    (s.bubble_down i).heap.length = s.heap.length := by
  induction s, i using DHeap.bubble_down.induct with
  | case1 s i hc =>
      rw [DHeap.bubble_down, dif_pos hc]
  | case2 s i hc hgt ih =>
      rw [DHeap.bubble_down, dif_neg hc, if_pos hgt]
      exact ih.trans (DHeap.swap_length _ _ _)
  | case3 s i hc hgt =>
      rw [DHeap.bubble_down, dif_neg hc, if_neg hgt]

theorem DHeap.bubble_down_minIdx_mem {s : DHeap} {i : Nat} (hc : ¬ s.children i = []) :
    minIdx s.heap ((s.children i).head hc) (s.children i).tail ∈ s.children i := by
  have := minIdx_mem s.heap ((s.children i).head hc) (s.children i).tail
  rwa [List.head_cons_tail] at this

theorem DHeap.bubble_down_minIdx_le {s : DHeap} {i : Nat} (hc : ¬ s.children i = []) :
    ∀ y ∈ s.children i,
      (nthItem s.heap (minIdx s.heap ((s.children i).head hc) (s.children i).tail)).cost ≤
        (nthItem s.heap y).cost := by
  intro y hy
  refine minIdx_le s.heap (s.children i).tail ((s.children i).head hc) y ?_
  rwa [List.head_cons_tail]

theorem DHeap.bubble_down_map : ∀ (s : DHeap) (i : Nat),
    mapOk s.heap s.position_map →
    mapOk (s.bubble_down i).heap (s.bubble_down i).position_map ∧
    ∀ k, (s.bubble_down i).costOf k = s.costOf k := by
  intro s i
  induction s, i using DHeap.bubble_down.induct with
  | case1 s i hc =>
      intro hm
      rw [DHeap.bubble_down, dif_pos hc]
      exact ⟨hm, fun _ => rfl⟩
  | case2 s i hc hgt ih =>
      intro hm
      obtain ⟨hmlb, hmn, hmub, himc, hd1⟩ := mem_children (DHeap.bubble_down_minIdx_mem hc)
      have hi : i < s.heap.length := lt_trans himc hmn
      have hij : i ≠ minIdx s.heap ((s.children i).head hc) (s.children i).tail :=
        Nat.ne_of_lt himc
      have hm' := DHeap.swap_mapOk hm hi hmn hij
      obtain ⟨hmt, hct⟩ := ih hm'
      rw [DHeap.bubble_down, dif_neg hc, if_pos hgt]
      exact ⟨hmt, fun k => (hct k).trans (DHeap.swap_costOf hm hi hmn hij k)⟩
  | case3 s i hc hgt =>
      intro hm
      rw [DHeap.bubble_down, dif_neg hc, if_neg hgt]
      exact ⟨hm, fun _ => rfl⟩

theorem DHeap.bubble_down_mem : ∀ (s : DHeap) (i : Nat) (x : Item),
    x ∈ (s.bubble_down i).heap ↔ x ∈ s.heap := by
  intro s i
  induction s, i using DHeap.bubble_down.induct with
  | case1 s i hc =>
      intro x
      rw [DHeap.bubble_down, dif_pos hc]
  | case2 s i hc hgt ih =>
      intro x
      obtain ⟨hmlb, hmn, hmub, himc, hd1⟩ := mem_children (DHeap.bubble_down_minIdx_mem hc)
      have hi : i < s.heap.length := lt_trans himc hmn
      have hij : i ≠ minIdx s.heap ((s.children i).head hc) (s.children i).tail :=
        Nat.ne_of_lt himc
      rw [DHeap.bubble_down, dif_neg hc, if_pos hgt]
      exact (ih x).trans (DHeap.swap_mem hi hmn hij)
  | case3 s i hc hgt =>
      intro x
      rw [DHeap.bubble_down, dif_neg hc, if_neg hgt]

theorem DHeap.bubble_down_heapOrder : ∀ (s : DHeap) (i : Nat), 1 ≤ s.d →
    DownOk s.d s.heap i → heapOrder s.d (s.bubble_down i).heap := by
  intro s i
  induction s, i using DHeap.bubble_down.induct with
  | case1 s i hc =>
      intro hd hdn
      rw [DHeap.bubble_down, dif_pos hc]
      intro j hj hj0
      by_cases hpj : (j - 1) / s.d = i
      · have : j ∈ s.children i := (children_iff hd).mpr ⟨hj0, hj, hpj⟩
        rw [hc] at this
        cases this
      · exact hdn.1 j hj hj0 hpj
  | case2 s i hc hgt ih =>
      intro hd hdn
      rw [DHeap.bubble_down, dif_neg hc, if_pos hgt]
      refine ih hd ?_
      exact downOk_swap hd (DHeap.bubble_down_minIdx_mem hc)
        (DHeap.bubble_down_minIdx_le hc) hdn hgt
  | case3 s i hc hgt =>
      intro hd hdn
      rw [DHeap.bubble_down, dif_neg hc, if_neg hgt]
      intro j hj hj0
      by_cases hpj : (j - 1) / s.d = i
      · have hjc : j ∈ s.children i := (children_iff hd).mpr ⟨hj0, hj, hpj⟩
        rw [hpj]
        exact (le_of_not_lt hgt).trans (DHeap.bubble_down_minIdx_le hc j hjc)
      · exact hdn.1 j hj hj0 hpj

theorem parentIdx_lt {d j : Nat} (h : 0 < j) : (j - 1) / d < j :=
  Nat.lt_of_le_of_lt (Nat.div_le_self _ _) (by omega)

theorem heapOrder_root_le {d : Nat} {l : List Item} (h : heapOrder d l) :
    ∀ j, j < l.length → (nthItem l 0).cost ≤ (nthItem l j).cost := by
  intro j
  induction j using Nat.strong_induction_on with
  | _ j ih =>
      intro hj
      rcases Nat.eq_zero_or_pos j with h0 | h0
      · rw [h0]
      · have hp := parentIdx_lt (d := d) h0
        exact (ih _ hp (lt_trans hp hj)).trans (h j hj h0)

theorem upOk_append {d : Nat} (hd : 1 ≤ d) {l : List Item} (h : heapOrder d l) (x : Item) :
    UpOk d (l ++ [x]) l.length := by
  constructor
  · intro j hj hj0 hji
    rw [List.length_append, List.length_singleton] at hj
    have hjlt : j < l.length := by omega
    have hplt : (j - 1) / d < j := parentIdx_lt hj0
    rw [nthItem_append_lt hjlt, nthItem_append_lt (by omega)]
    exact h j hjlt hj0
  · intro hpos j hj hj0 hpj
    rw [List.length_append, List.length_singleton] at hj
    have hb := child_bounds hd hj0 hpj
    have h2 : l.length ≤ d * l.length := Nat.le_mul_of_pos_left _ hd
    omega

theorem upOk_set_lt {d : Nat} {l : List Item} (h : heapOrder d l)
    {index : Nat} (hidx : index < l.length) {c : Int}
    (hc : c ≤ (nthItem l index).cost) :
    UpOk d (l.set index ⟨(nthItem l index).number, c⟩) index := by
  constructor
  · intro j hj hj0 hji
    rw [List.length_set] at hj
    rw [nthItem_set_ne (fun hx => hji hx.symm)]
    by_cases hpj : (j - 1) / d = index
    · rw [hpj, nthItem_set_self hidx]
      show c ≤ (nthItem l j).cost
      have h1 := h j hj hj0
      rw [hpj] at h1
      exact hc.trans h1
    · rw [nthItem_set_ne (fun hx => hpj hx.symm)]
      exact h j hj hj0
  · intro hpos j hj hj0 hpj
    rw [List.length_set] at hj
    have hplt : (index - 1) / d < index := parentIdx_lt hpos
    have hjgt : index < j := child_gt (Nat.one_le_iff_ne_zero.mpr (by
      intro hd0
      rw [hd0] at hpj
      simp at hpj
      omega)) hj0 hpj
    rw [nthItem_set_ne (by omega), nthItem_set_ne (by omega)]
    have h1 := h j hj hj0
    rw [hpj] at h1
    exact (h index hidx hpos).trans h1

theorem downOk_set_gt {d : Nat} {l : List Item} (h : heapOrder d l)
    {index : Nat} (hidx : index < l.length) {c : Int}
    (hc : (nthItem l index).cost ≤ c) :
    DownOk d (l.set index ⟨(nthItem l index).number, c⟩) index := by
  constructor
  · intro j hj hj0 hpj
    rw [List.length_set] at hj
    by_cases hji : j = index
    · rw [hji] at hj0 ⊢
      have hplt : (index - 1) / d < index := parentIdx_lt hj0
      rw [nthItem_set_self hidx, nthItem_set_ne (by omega)]
      show (nthItem l ((index - 1) / d)).cost ≤ c
      exact (h index hidx hj0).trans hc
    · rw [nthItem_set_ne (fun hx => hpj hx.symm), nthItem_set_ne (fun hx => hji hx.symm)]
      exact h j hj hj0
  · intro hpos j hj hj0 hpj
    rw [List.length_set] at hj
    have hplt : (index - 1) / d < index := parentIdx_lt hpos
    have hjgt : index < j := child_gt (Nat.one_le_iff_ne_zero.mpr (by
      intro hd0
      rw [hd0] at hpj
      simp at hpj
      omega)) hj0 hpj
    rw [nthItem_set_ne (by omega), nthItem_set_ne (by omega)]
    have h1 := h j hj hj0
    rw [hpj] at h1
    exact (h index hidx hpos).trans h1

theorem downOk_pop {d : Nat} {l : List Item} (h : heapOrder d l) (hn : 2 ≤ l.length) :
    DownOk d ((l.dropLast).set 0 (nthItem l (l.length - 1))) 0 := by
  constructor
  · intro j hj hj0 hpj
    rw [List.length_set, List.length_dropLast] at hj
    have hp0 : 0 < (j - 1) / d := Nat.pos_of_ne_zero hpj
    have hplt : (j - 1) / d < j := parentIdx_lt hj0
    rw [nthItem_set_ne (by omega), nthItem_dropLast (by omega),
      nthItem_set_ne (by omega), nthItem_dropLast (by omega)]
    exact h j (by omega) hj0
  · intro hpos
    exact absurd hpos (lt_irrefl 0)

theorem mapOk_append {l : List Item} {m : PosMap} (hm : mapOk l m) {x : Item}
    (hnew : pfind m x.number = none) :
    mapOk (l ++ [x]) (pset m x.number l.length) := by
  constructor
  · intro i hi
    rw [List.length_append, List.length_singleton] at hi
    rcases Nat.lt_or_ge i l.length with hlt | hge
    · rw [nthItem_append_lt hlt]
      have hne : (nthItem l i).number ≠ x.number := by
        intro hc
        have := hm.1 i hlt
        rw [hc, hnew] at this
        cases this
      rw [pfind_pset_ne _ hne]
      exact hm.1 i hlt
    · have hieq : i = l.length := by omega
      rw [hieq, nthItem_append_len, pfind_pset_self]
  · intro p hp
    rcases mem_pset hp with hp | hp
    · refine ⟨l.length, by simp, ?_⟩
      rw [nthItem_append_len, hp]
    · rcases hm.2 _ hp with ⟨i, hi, hnum⟩
      refine ⟨i, by simp; omega, ?_⟩
      rw [nthItem_append_lt hi]
      exact hnum

theorem mapOk_set {l : List Item} {m : PosMap} (hm : mapOk l m) {index : Nat}
    (hidx : index < l.length) (c : Int) :
    mapOk (l.set index ⟨(nthItem l index).number, c⟩) m := by
  constructor
  · intro i hi
    rw [List.length_set] at hi
    by_cases hii : i = index
    · rw [hii, nthItem_set_self hidx]
      exact hm.1 index hidx
    · rw [nthItem_set_ne (fun hx => hii hx.symm)]
      exact hm.1 i hi
  · intro p hp
    rcases hm.2 _ hp with ⟨i, hi, hnum⟩
    refine ⟨i, by rw [List.length_set]; exact hi, ?_⟩
    by_cases hii : i = index
    · rw [hii, nthItem_set_self hidx]
      rw [hii] at hnum
      exact hnum
    · rw [nthItem_set_ne (fun hx => hii hx.symm)]
      exact hnum

theorem mapOk_pop_single {l : List Item} {m : PosMap} (hm : mapOk l m)
    (hn : l.length = 1) :
    mapOk l.dropLast (perase m (nthItem l 0).number) := by
  constructor
  · intro i hi
    rw [List.length_dropLast, hn] at hi
    omega
  · intro p hp
    obtain ⟨hpm, hpk⟩ := mem_perase hp
    rcases hm.2 _ hpm with ⟨i, hi, hnum⟩
    have : i = 0 := by omega
    rw [this] at hnum
    exact absurd hnum.symm hpk

theorem mapOk_pop {l : List Item} {m : PosMap} (hm : mapOk l m) (hn : 2 ≤ l.length) :
    mapOk ((l.dropLast).set 0 (nthItem l (l.length - 1)))
      (pset (perase m (nthItem l 0).number) (nthItem l (l.length - 1)).number 0) := by
  have h0n : (0 : Nat) < l.length := by omega
  have hln : l.length - 1 < l.length := by omega
  have hr := hm.1 0 h0n
  have hl := hm.1 (l.length - 1) hln
  have hrl : (nthItem l 0).number ≠ (nthItem l (l.length - 1)).number := by
    intro hc
    rw [hc, hl] at hr
    have := Option.some.inj hr
    omega
  have hlen : ((l.dropLast).set 0 (nthItem l (l.length - 1))).length = l.length - 1 := by
    rw [List.length_set, List.length_dropLast]
  constructor
  · intro i hi
    rw [hlen] at hi
    rcases Nat.eq_zero_or_pos i with hi0 | hipos
    · rw [hi0, nthItem_set_self (by rw [List.length_dropLast]; omega :
        0 < (l.dropLast).length), pfind_pset_self]
    · have hnth : nthItem ((l.dropLast).set 0 (nthItem l (l.length - 1))) i = nthItem l i := by
        rw [nthItem_set_ne (by omega), nthItem_dropLast (by omega)]
      rw [hnth]
      have hi' := hm.1 i (by omega)
      have hne_l : (nthItem l i).number ≠ (nthItem l (l.length - 1)).number := by
        intro hc
        rw [hc, hl] at hi'
        have := Option.some.inj hi'
        omega
      have hne_r : (nthItem l i).number ≠ (nthItem l 0).number := by
        intro hc
        rw [hc, hr] at hi'
        have := Option.some.inj hi'
        omega
      rw [pfind_pset_ne _ hne_l, pfind_perase_ne _ hne_r]
      exact hi'
  · intro p hp
    rcases mem_pset hp with hp | hp
    · refine ⟨0, by omega, ?_⟩
      rw [nthItem_set_self (by rw [List.length_dropLast]; omega), hp]
    · obtain ⟨hpm, hpk⟩ := mem_perase hp
      rcases hm.2 _ hpm with ⟨i, hi, hnum⟩
      have hi0 : i ≠ 0 := by
        intro hc
        rw [hc] at hnum
        exact hpk hnum.symm
      rcases Nat.lt_or_ge i (l.length - 1) with hilt | hige
      · refine ⟨i, by omega, ?_⟩
        rw [nthItem_set_ne (by omega), nthItem_dropLast (by omega)]
        exact hnum
      · have : i = l.length - 1 := by omega
        refine ⟨0, by omega, ?_⟩
        rw [nthItem_set_self (by rw [List.length_dropLast]; omega), ← this]
        exact hnum

theorem DHeap.costOf_isSome (s : DHeap) (k : Int) :
    (s.costOf k).isSome = (pfind s.position_map k).isSome := by
  unfold DHeap.costOf
  cases pfind s.position_map k <;> rfl

theorem mapOk_none_of_not_mem {l : List Item} {m : PosMap} (hm : mapOk l m) {k : Int}
    (h : ∀ i, i < l.length → (nthItem l i).number ≠ k) : pfind m k = none := by
  cases hf : pfind m k with
  | none => rfl
  | some q =>
      rcases mapOk_find_char hm hf with ⟨hq, hnum⟩
      exact absurd hnum (h q hq)

theorem DHeap.insert_ok {s : DHeap} {it : Item} {t : DHeap} (hw : s.Wf)
    (h : s.insert it = .ok t) :
    t.Wf ∧ t.d = s.d ∧ t.heap.length = s.heap.length + 1 ∧
    t.costOf it.number = some it.cost ∧
    (∀ k, k ≠ it.number → t.costOf k = s.costOf k) := by
  by_cases hdup : (pfind s.position_map it.number).isSome
  · rw [DHeap.insert, if_pos hdup] at h
    cases h
  · rw [DHeap.insert, if_neg hdup] at h
    simp only [List.length_append, List.length_singleton, Nat.add_sub_cancel] at h
    have ht := Except.ok.inj h
    have hnone : pfind s.position_map it.number = none :=
      Option.not_isSome_iff_eq_none.mp hdup
    have hd1 : 1 ≤ s.d := by have := hw.1; omega
    have hm' : mapOk (s.heap ++ [it]) (pset s.position_map it.number s.heap.length) :=
      mapOk_append hw.2.2 hnone
    have hi' : s.heap.length <
        ({ s with
            heap := s.heap ++ [it],
            position_map := pset s.position_map it.number s.heap.length } :
          DHeap).heap.length := by
      simp
    obtain ⟨hmt, hct⟩ := DHeap.bubble_up_map _ s.heap.length hi' hm'
    have hord := DHeap.bubble_up_heapOrder
      { s with
          heap := s.heap ++ [it],
          position_map := pset s.position_map it.number s.heap.length }
      s.heap.length hd1 hi' (upOk_append hd1 hw.2.1 it)
    rw [← ht]
    refine ⟨⟨?_, ?_, hmt⟩, ?_, ?_, ?_, ?_⟩
    · rw [DHeap.bubble_up_d]
      exact hw.1
    · rw [DHeap.bubble_up_d]
      exact hord
    · rw [DHeap.bubble_up_d]
    · rw [DHeap.bubble_up_length]
      simp
    · rw [hct it.number]
      unfold DHeap.costOf
      show ((pfind (pset s.position_map it.number s.heap.length) it.number).map
        fun i => (nthItem (s.heap ++ [it]) i).cost) = some it.cost
      rw [pfind_pset_self]
      simp [nthItem_append_len]
    · intro k hk
      rw [hct k]
      unfold DHeap.costOf
      show ((pfind (pset s.position_map it.number s.heap.length) k).map
        fun i => (nthItem (s.heap ++ [it]) i).cost) = _
      rw [pfind_pset_ne _ hk]
      cases hf : pfind s.position_map k with
      | none => rfl
      | some q =>
          rcases mapOk_find_char hw.2.2 hf with ⟨hq, _⟩
          simp [nthItem_append_lt hq]

theorem DHeap.insert_length {s : DHeap} {it : Item} {t : DHeap}
    (h : s.insert it = .ok t) : t.heap.length = s.heap.length + 1 := by
  by_cases hdup : (pfind s.position_map it.number).isSome
  · rw [DHeap.insert, if_pos hdup] at h
    cases h
  · rw [DHeap.insert, if_neg hdup] at h
    have ht := Except.ok.inj h
    rw [← ht, DHeap.bubble_up_length]
    simp

theorem DHeap.insert_error_iff (s : DHeap) (it : Item) :
    s.insert it = .error .duplicateIdentity ↔ s.contains it = true := by
  unfold DHeap.insert DHeap.contains
  by_cases hdup : (pfind s.position_map it.number).isSome
  · simp [hdup]
  · simp [hdup]

theorem DHeap.pop_empty {s : DHeap} (h : s.heap = []) : s.pop = (none, s) := by
  unfold DHeap.pop
  rw [h]

theorem DHeap.pop_eq_single {s : DHeap} (h1 : s.heap.length = 1) :
    s.pop = (some (nthItem s.heap 0),
      { s with heap := s.heap.dropLast,
               position_map := perase s.position_map (nthItem s.heap 0).number }) := by
  have hne : s.heap ≠ [] := by
    intro hc
    rw [hc] at h1
    cases h1
  obtain ⟨y, ys, hh⟩ := List.exists_cons_of_ne_nil hne
  have hys : ys = [] := by
    rw [hh] at h1
    simpa using h1
  subst hys
  unfold DHeap.pop
  rw [hh]
  rfl

theorem DHeap.pop_eq_multi {s : DHeap} (h2 : 2 ≤ s.heap.length) :
    s.pop = (some (nthItem s.heap 0),
      DHeap.bubble_down
        { s with heap := s.heap.dropLast.set 0 (nthItem s.heap (s.heap.length - 1)),
                 position_map := pset (perase s.position_map (nthItem s.heap 0).number)
                   (nthItem s.heap (s.heap.length - 1)).number 0 } 0) := by
  have hne : s.heap ≠ [] := by
    intro hc
    rw [hc] at h2
    simp at h2
  obtain ⟨y, ys, hh⟩ := List.exists_cons_of_ne_nil hne
  have hcond : ¬ ((y :: ys).dropLast.isEmpty = true) := by
    intro hc
    rw [List.isEmpty_iff] at hc
    have hlen := congrArg List.length hc
    rw [List.length_dropLast] at hlen
    rw [hh] at h2
    simp only [List.length_nil] at hlen
    omega
  unfold DHeap.pop
  rw [hh]
  rw [if_neg hcond]

theorem DHeap.pop_none {s : DHeap} {t : DHeap} (h : s.pop = (none, t)) :
    s.heap = [] ∧ t = s := by
  by_cases hne : s.heap = []
  · rw [DHeap.pop_empty hne] at h
    rw [Prod.mk.injEq] at h
    exact ⟨hne, h.2.symm⟩
  · have hlen : 1 ≤ s.heap.length := by
      rcases Nat.eq_zero_or_pos s.heap.length with h0 | h0
      · exact absurd (List.length_eq_zero.mp h0) hne
      · exact h0
    rcases Nat.lt_or_ge s.heap.length 2 with hl | hl
    · rw [DHeap.pop_eq_single (by omega)] at h
      rw [Prod.mk.injEq] at h
      cases h.1
    · rw [DHeap.pop_eq_multi hl] at h
      rw [Prod.mk.injEq] at h
      cases h.1

theorem DHeap.pop_some_length {s : DHeap} {x : Item} {t : DHeap}
    (h : s.pop = (some x, t)) : t.heap.length + 1 = s.heap.length := by
  by_cases hne : s.heap = []
  · rw [DHeap.pop_empty hne] at h
    rw [Prod.mk.injEq] at h
    cases h.1
  · have hlen : 1 ≤ s.heap.length := by
      rcases Nat.eq_zero_or_pos s.heap.length with h0 | h0
      · exact absurd (List.length_eq_zero.mp h0) hne
      · exact h0
    rcases Nat.lt_or_ge s.heap.length 2 with hl | hl
    · rw [DHeap.pop_eq_single (by omega)] at h
      rw [Prod.mk.injEq] at h
      rw [← h.2]
      show (s.heap.dropLast).length + 1 = s.heap.length
      rw [List.length_dropLast]
      omega
    · rw [DHeap.pop_eq_multi hl] at h
      rw [Prod.mk.injEq] at h
      rw [← h.2]
      rw [DHeap.bubble_down_length]
      show (s.heap.dropLast.set 0 (nthItem s.heap (s.heap.length - 1))).length + 1 =
        s.heap.length
      rw [List.length_set, List.length_dropLast]
      omega

theorem DHeap.pop_ok {s : DHeap} (hw : s.Wf) (hne : s.heap ≠ []) :
    ∃ t, s.pop = (some (nthItem s.heap 0), t) ∧ t.Wf ∧ t.d = s.d ∧
      t.heap.length = s.heap.length - 1 ∧
      (∀ x ∈ t.heap, x ∈ s.heap) ∧
      (∀ x ∈ s.heap, x = nthItem s.heap 0 ∨ x ∈ t.heap) ∧
      pfind t.position_map (nthItem s.heap 0).number = none := by
  have hlen : 1 ≤ s.heap.length := by
    rcases Nat.eq_zero_or_pos s.heap.length with h0 | h0
    · exact absurd (List.length_eq_zero.mp h0) hne
    · exact h0
  have hd1 : 1 ≤ s.d := by have := hw.1; omega
  rcases Nat.lt_or_ge s.heap.length 2 with hl | hl
  · have h1 : s.heap.length = 1 := by omega
    have hnil : s.heap.dropLast = [] :=
      List.length_eq_zero.mp (by rw [List.length_dropLast]; omega)
    refine ⟨_, DHeap.pop_eq_single h1, ⟨hw.1, ?_, mapOk_pop_single hw.2.2 h1⟩, rfl, ?_, ?_, ?_, ?_⟩
    · intro j hj hj0
      have hj' : j < (s.heap.dropLast).length := hj
      rw [List.length_dropLast, h1] at hj'
      exact absurd hj' (by omega)
    · show (s.heap.dropLast).length = s.heap.length - 1
      rw [List.length_dropLast]
    · intro x hx
      rw [hnil] at hx
      cases hx
    · intro x hx
      rcases mem_iff_nthItem.mp hx with ⟨q, hq, hqx⟩
      left
      rw [← hqx]
      congr 1
      omega
    · exact pfind_perase_self _ _
  · have hm0 : mapOk (s.heap.dropLast.set 0 (nthItem s.heap (s.heap.length - 1)))
        (pset (perase s.position_map (nthItem s.heap 0).number)
          (nthItem s.heap (s.heap.length - 1)).number 0) := mapOk_pop hw.2.2 hl
    have hdn := downOk_pop (d := s.d) hw.2.1 hl
    obtain ⟨hmt, hct⟩ := DHeap.bubble_down_map
      { s with heap := s.heap.dropLast.set 0 (nthItem s.heap (s.heap.length - 1)),
               position_map := pset (perase s.position_map (nthItem s.heap 0).number)
                 (nthItem s.heap (s.heap.length - 1)).number 0 } 0 hm0
    have hord := DHeap.bubble_down_heapOrder
      { s with heap := s.heap.dropLast.set 0 (nthItem s.heap (s.heap.length - 1)),
               position_map := pset (perase s.position_map (nthItem s.heap 0).number)
                 (nthItem s.heap (s.heap.length - 1)).number 0 } 0 hd1 hdn
    have hlen0 : (s.heap.dropLast.set 0 (nthItem s.heap (s.heap.length - 1))).length =
        s.heap.length - 1 := by
      rw [List.length_set, List.length_dropLast]
    have hmemt0 : ∀ x, x ∈ s.heap.dropLast.set 0 (nthItem s.heap (s.heap.length - 1)) →
        x ∈ s.heap := by
      intro x hx
      rcases mem_iff_nthItem.mp hx with ⟨q, hq, hqx⟩
      rw [hlen0] at hq
      rcases Nat.eq_zero_or_pos q with hq0 | hqpos
      · rw [hq0] at hqx
        rw [nthItem_set_self (by rw [List.length_dropLast]; omega)] at hqx
        rw [← hqx]
        exact nthItem_mem (by omega)
      · rw [nthItem_set_ne (by omega), nthItem_dropLast (by omega)] at hqx
        rw [← hqx]
        exact nthItem_mem (by omega)
    have hnum0 : ∀ x, x ∈ s.heap.dropLast.set 0 (nthItem s.heap (s.heap.length - 1)) →
        x.number ≠ (nthItem s.heap 0).number := by
      intro x hx hceq
      rcases mem_iff_nthItem.mp hx with ⟨q, hq, hqx⟩
      rw [hlen0] at hq
      rcases Nat.eq_zero_or_pos q with hq0 | hqpos
      · rw [hq0, nthItem_set_self (by rw [List.length_dropLast]; omega)] at hqx
        have ha := hw.2.2.1 (s.heap.length - 1) (by omega)
        have hb := hw.2.2.1 0 (by omega)
        rw [hqx, hceq] at ha
        rw [ha] at hb
        have := Option.some.inj hb
        omega
      · rw [nthItem_set_ne (by omega), nthItem_dropLast (by omega)] at hqx
        have ha := hw.2.2.1 q (by omega)
        have hb := hw.2.2.1 0 (by omega)
        rw [hqx, hceq] at ha
        rw [ha] at hb
        have := Option.some.inj hb
        omega
    refine ⟨_, DHeap.pop_eq_multi hl, ⟨?_, ?_, hmt⟩, ?_, ?_, ?_, ?_, ?_⟩
    · rw [DHeap.bubble_down_d]
      exact hw.1
    · rw [DHeap.bubble_down_d]
      exact hord
    · rw [DHeap.bubble_down_d]
    · rw [DHeap.bubble_down_length]
      exact hlen0
    · intro x hx
      rw [DHeap.bubble_down_mem] at hx
      exact hmemt0 x hx
    · intro x hx
      rcases mem_iff_nthItem.mp hx with ⟨q, hq, hqx⟩
      rcases Nat.eq_zero_or_pos q with hq0 | hqpos
      · left
        rw [← hqx, hq0]
      · rcases Nat.lt_or_ge q (s.heap.length - 1) with hql | hqg
        · right
          rw [DHeap.bubble_down_mem]
          refine mem_iff_nthItem.mpr ⟨q, by rw [hlen0]; omega, ?_⟩
          rw [nthItem_set_ne (by omega), nthItem_dropLast (by omega)]
          exact hqx
        · have hqeq : q = s.heap.length - 1 := by omega
          right
          rw [DHeap.bubble_down_mem]
          refine mem_iff_nthItem.mpr ⟨0, by rw [hlen0]; omega, ?_⟩
          rw [nthItem_set_self (by rw [List.length_dropLast]; omega), ← hqeq]
          exact hqx
    · apply mapOk_none_of_not_mem hmt
      intro i hi
      apply hnum0
      exact (DHeap.bubble_down_mem _ 0 _).mp (nthItem_mem hi)

theorem DHeap.increase_ok {s : DHeap} {it : Item} {t : DHeap} (hw : s.Wf)
    (h : s.increase_priority it = .ok t) :
    t.Wf ∧ t.d = s.d ∧ t.heap.length = s.heap.length ∧
    (∀ k, (pfind t.position_map k).isSome = (pfind s.position_map k).isSome) ∧
    (∀ k, k ≠ it.number → t.costOf k = s.costOf k) ∧
    t.costOf it.number = some it.cost := by
  cases hf : pfind s.position_map it.number with
  | none =>
      rw [DHeap.increase_priority, hf] at h
      cases h
  | some index =>
      rw [DHeap.increase_priority, hf] at h
      dsimp only at h
      by_cases hc : it.cost < (nthItem s.heap index).cost
      · rw [if_pos hc] at h
        have ht := Except.ok.inj h
        rcases mapOk_find_char hw.2.2 hf with ⟨hidx, hnum⟩
        have hd1 : 1 ≤ s.d := by have := hw.1; omega
        have hm' : mapOk
            (s.heap.set index ⟨(nthItem s.heap index).number, it.cost⟩) s.position_map :=
          mapOk_set hw.2.2 hidx it.cost
        have hi' : index <
            ({ s with
                heap := s.heap.set index ⟨(nthItem s.heap index).number, it.cost⟩ } :
              DHeap).heap.length := by
          show index < (s.heap.set index _).length
          rw [List.length_set]
          exact hidx
        obtain ⟨hmt, hct⟩ := DHeap.bubble_up_map _ index hi' hm'
        have hord := DHeap.bubble_up_heapOrder
          { s with heap := s.heap.set index ⟨(nthItem s.heap index).number, it.cost⟩ }
          index hd1 hi' (upOk_set_lt hw.2.1 hidx hc.le)
        rw [← ht]
        refine ⟨⟨?_, ?_, hmt⟩, ?_, ?_, ?_, ?_, ?_⟩
        · rw [DHeap.bubble_up_d]
          exact hw.1
        · rw [DHeap.bubble_up_d]
          exact hord
        · rw [DHeap.bubble_up_d]
        · rw [DHeap.bubble_up_length]
          show (s.heap.set index _).length = s.heap.length
          rw [List.length_set]
        · intro k
          rw [← DHeap.costOf_isSome, ← DHeap.costOf_isSome, hct k]
          unfold DHeap.costOf
          show ((pfind s.position_map k).map _).isSome = ((pfind s.position_map k).map _).isSome
          cases pfind s.position_map k <;> rfl
        · intro k hk
          rw [hct k]
          unfold DHeap.costOf
          show ((pfind s.position_map k).map
            fun i => (nthItem (s.heap.set index ⟨(nthItem s.heap index).number, it.cost⟩) i).cost) = _
          cases hfk : pfind s.position_map k with
          | none => rfl
          | some q =>
              rcases mapOk_find_char hw.2.2 hfk with ⟨hq, hqnum⟩
              have hqne : q ≠ index := by
                intro hcq
                rw [hcq, hnum] at hqnum
                exact hk hqnum.symm
              simp [nthItem_set_ne (fun hx => hqne hx.symm)]
        · rw [hct it.number]
          unfold DHeap.costOf
          show ((pfind s.position_map it.number).map
            fun i => (nthItem (s.heap.set index ⟨(nthItem s.heap index).number, it.cost⟩) i).cost) =
              some it.cost
          rw [hf]
          simp [nthItem_set_self hidx]
      · rw [if_neg hc] at h
        cases h

theorem DHeap.decrease_ok {s : DHeap} {it : Item} {t : DHeap} (hw : s.Wf)
    (h : s.decrease_priority it = .ok t) :
    t.Wf ∧ t.d = s.d ∧ t.heap.length = s.heap.length ∧
    (∀ k, (pfind t.position_map k).isSome = (pfind s.position_map k).isSome) ∧
    (∀ k, k ≠ it.number → t.costOf k = s.costOf k) ∧
    t.costOf it.number = some it.cost := by
  cases hf : pfind s.position_map it.number with
  | none =>
      rw [DHeap.decrease_priority, hf] at h
      cases h
  | some index =>
      rw [DHeap.decrease_priority, hf] at h
      dsimp only at h
      by_cases hc : it.cost > (nthItem s.heap index).cost
      · rw [if_pos hc] at h
        have ht := Except.ok.inj h
        rcases mapOk_find_char hw.2.2 hf with ⟨hidx, hnum⟩
        have hd1 : 1 ≤ s.d := by have := hw.1; omega
        have hm' : mapOk
            (s.heap.set index ⟨(nthItem s.heap index).number, it.cost⟩) s.position_map :=
          mapOk_set hw.2.2 hidx it.cost
        obtain ⟨hmt, hct⟩ := DHeap.bubble_down_map
          { s with heap := s.heap.set index ⟨(nthItem s.heap index).number, it.cost⟩ }
          index hm'
        have hord := DHeap.bubble_down_heapOrder
          { s with heap := s.heap.set index ⟨(nthItem s.heap index).number, it.cost⟩ }
          index hd1 (downOk_set_gt hw.2.1 hidx hc.le)
        rw [← ht]
        refine ⟨⟨?_, ?_, hmt⟩, ?_, ?_, ?_, ?_, ?_⟩
        · rw [DHeap.bubble_down_d]
          exact hw.1
        · rw [DHeap.bubble_down_d]
          exact hord
        · rw [DHeap.bubble_down_d]
        · rw [DHeap.bubble_down_length]
          show (s.heap.set index _).length = s.heap.length
          rw [List.length_set]
        · intro k
          rw [← DHeap.costOf_isSome, ← DHeap.costOf_isSome, hct k]
          unfold DHeap.costOf
          show ((pfind s.position_map k).map _).isSome = ((pfind s.position_map k).map _).isSome
          cases pfind s.position_map k <;> rfl
        · intro k hk
          rw [hct k]
          unfold DHeap.costOf
          show ((pfind s.position_map k).map
            fun i => (nthItem (s.heap.set index ⟨(nthItem s.heap index).number, it.cost⟩) i).cost) = _
          cases hfk : pfind s.position_map k with
          | none => rfl
          | some q =>
              rcases mapOk_find_char hw.2.2 hfk with ⟨hq, hqnum⟩
              have hqne : q ≠ index := by
                intro hcq
                rw [hcq, hnum] at hqnum
                exact hk hqnum.symm
              simp [nthItem_set_ne (fun hx => hqne hx.symm)]
        · rw [hct it.number]
          unfold DHeap.costOf
          show ((pfind s.position_map it.number).map
            fun i => (nthItem (s.heap.set index ⟨(nthItem s.heap index).number, it.cost⟩) i).cost) =
              some it.cost
          rw [hf]
          simp [nthItem_set_self hidx]
      · rw [if_neg hc] at h
        cases h

theorem DHeap.increase_length {s : DHeap} {it : Item} {t : DHeap}
    (h : s.increase_priority it = .ok t) : t.heap.length = s.heap.length := by
  cases hf : pfind s.position_map it.number with
  | none =>
      rw [DHeap.increase_priority, hf] at h
      cases h
  | some index =>
      rw [DHeap.increase_priority, hf] at h
      dsimp only at h
      by_cases hc : it.cost < (nthItem s.heap index).cost
      · rw [if_pos hc] at h
        rw [← Except.ok.inj h, DHeap.bubble_up_length]
        show (s.heap.set index _).length = s.heap.length
        rw [List.length_set]
      · rw [if_neg hc] at h
        cases h

theorem DHeap.decrease_length {s : DHeap} {it : Item} {t : DHeap}
    (h : s.decrease_priority it = .ok t) : t.heap.length = s.heap.length := by
  cases hf : pfind s.position_map it.number with
  | none =>
      rw [DHeap.decrease_priority, hf] at h
      cases h
  | some index =>
      rw [DHeap.decrease_priority, hf] at h
      dsimp only at h
      by_cases hc : it.cost > (nthItem s.heap index).cost
      · rw [if_pos hc] at h
        rw [← Except.ok.inj h, DHeap.bubble_down_length]
        show (s.heap.set index _).length = s.heap.length
        rw [List.length_set]
      · rw [if_neg hc] at h
        cases h

theorem DHeap.increase_error_char (s : DHeap) (it : Item) :
    (s.increase_priority it = .error .notFound ↔ s.contains it = false) ∧
    (s.increase_priority it = .error .invalidTransition ↔
      ∃ cur, s.costOf it.number = some cur ∧ ¬ it.cost < cur) := by
  unfold DHeap.contains DHeap.costOf
  cases hf : pfind s.position_map it.number with
  | none =>
      rw [DHeap.increase_priority, hf]
      simp
  | some index =>
      rw [DHeap.increase_priority, hf]
      dsimp only
      by_cases hc : it.cost < (nthItem s.heap index).cost
      · rw [if_pos hc]
        simp [hc]
      · rw [if_neg hc]
        simp [hc]
        exact le_of_not_lt hc

theorem DHeap.decrease_error_char (s : DHeap) (it : Item) :
    (s.decrease_priority it = .error .notFound ↔ s.contains it = false) ∧
    (s.decrease_priority it = .error .invalidTransition ↔
      ∃ cur, s.costOf it.number = some cur ∧ ¬ cur < it.cost) := by
  unfold DHeap.contains DHeap.costOf
  cases hf : pfind s.position_map it.number with
  | none =>
      rw [DHeap.decrease_priority, hf]
      simp
  | some index =>
      rw [DHeap.decrease_priority, hf]
      dsimp only
      by_cases hc : it.cost > (nthItem s.heap index).cost
      · rw [if_pos hc]
        simp [hc]
      · rw [if_neg hc]
        simp [hc]
        exact le_of_not_lt hc

/-- The six public operations, as one alphabet for stating invariant
preservation across any call. -/
inductive Op where
  | insertOp (it : Item)
  | popOp
  | frontOp
  | containsOp (it : Item)
  | increaseOp (it : Item)
  | decreaseOp (it : Item)

/-- The state after one public call; a failed call leaves the state as it
was, mirroring the source, which raises before any mutation. -/
def DHeap.step (s : DHeap) : Op → DHeap
  | .insertOp it =>
      match s.insert it with
      | .ok t => t
      | .error _ => s
  | .popOp => (s.pop).2
  | .frontOp => s
  | .containsOp _ => s
  | .increaseOp it =>
      match s.increase_priority it with
      | .ok t => t
      | .error _ => s
  | .decreaseOp it =>
      match s.decrease_priority it with
      | .ok t => t
      | .error _ => s

theorem DHeap.pop_wf {s : DHeap} (hw : s.Wf) : (s.pop).2.Wf := by
  by_cases hne : s.heap = []
  · rw [DHeap.pop_empty hne]
    exact hw
  · obtain ⟨t, hp, hwt, _⟩ := DHeap.pop_ok hw hne
    rw [hp]
    exact hwt

theorem DHeap.step_wf {s : DHeap} (hw : s.Wf) : ∀ op, (s.step op).Wf := by
  intro op
  cases op with
  | insertOp it =>
      show (match s.insert it with | .ok t => t | .error _ => s).Wf
      cases h : s.insert it with
      | ok t => exact (DHeap.insert_ok hw h).1
      | error e => exact hw
  | popOp => exact DHeap.pop_wf hw
  | frontOp => exact hw
  | containsOp it => exact hw
  | increaseOp it =>
      show (match s.increase_priority it with | .ok t => t | .error _ => s).Wf
      cases h : s.increase_priority it with
      | ok t => exact (DHeap.increase_ok hw h).1
      | error e => exact hw
  | decreaseOp it =>
      show (match s.decrease_priority it with | .ok t => t | .error _ => s).Wf
      cases h : s.decrease_priority it with
      | ok t => exact (DHeap.decrease_ok hw h).1
      | error e => exact hw

theorem DHeap.step_insert_error {s : DHeap} {it : Item} {e : HeapError}
    (h : s.insert it = .error e) : s.step (.insertOp it) = s := by
  show (match s.insert it with | .ok t => t | .error _ => s) = s
  rw [h]

theorem DHeap.step_increase_error {s : DHeap} {it : Item} {e : HeapError}
    (h : s.increase_priority it = .error e) : s.step (.increaseOp it) = s := by
  show (match s.increase_priority it with | .ok t => t | .error _ => s) = s
  rw [h]

theorem DHeap.step_decrease_error {s : DHeap} {it : Item} {e : HeapError}
    (h : s.decrease_priority it = .error e) : s.step (.decreaseOp it) = s := by
  show (match s.decrease_priority it with | .ok t => t | .error _ => s) = s
  rw [h]

/-- Pop repeatedly until empty, collecting the returned items in order. -/
def DHeap.popAll (s : DHeap) : List Item :=
  match h : s.pop with
  | (none, _) => []
  | (some x, t) => x :: t.popAll
termination_by s.heap.length
decreasing_by
  have := DHeap.pop_some_length h
  omega

theorem DHeap.popAll_eq_nil {s : DHeap} (h : s.heap = []) : s.popAll = [] := by
  conv_lhs => rw [DHeap.popAll]
  split
  · rfl
  next x t heq =>
      rw [DHeap.pop_empty h] at heq
      simp at heq

theorem DHeap.popAll_eq_cons {s : DHeap} {x : Item} {t : DHeap}
    (h : s.pop = (some x, t)) : s.popAll = x :: t.popAll := by
  conv_lhs => rw [DHeap.popAll]
  split
  next heq =>
      rw [h] at heq
      simp at heq
  next x' t' heq =>
      rw [h] at heq
      rw [Prod.mk.injEq] at heq
      obtain ⟨h1, h2⟩ := heq
      rw [Option.some.inj h1, h2]

theorem DHeap.popAll_spec : ∀ (n : Nat) (s : DHeap), s.heap.length = n → s.Wf →
    List.Sorted (· ≤ ·) (s.popAll.map Item.cost) ∧
    (∀ x, x ∈ s.popAll ↔ x ∈ s.heap) ∧ s.popAll.length = s.heap.length := by
  intro n
  induction n using Nat.strong_induction_on with
  | _ n ih =>
      intro s hlen hw
      by_cases hne : s.heap = []
      · have h0 : s.popAll = [] := DHeap.popAll_eq_nil hne
        rw [h0, hne]
        simp
      · obtain ⟨t, hp, hwt, hd, hlent, hmem1, hmem2, hpf⟩ := DHeap.pop_ok hw hne
        have hcons := DHeap.popAll_eq_cons hp
        have hlt : t.heap.length < n := by
          have := DHeap.pop_some_length hp
          omega
        obtain ⟨ihs, ihm, ihl⟩ := ih t.heap.length hlt t rfl hwt
        rw [hcons]
        refine ⟨?_, ?_, ?_⟩
        · rw [List.map_cons, List.sorted_cons]
          refine ⟨?_, ihs⟩
          intro b hb
          rcases List.mem_map.mp hb with ⟨y, hy, hyb⟩
          have hyt : y ∈ t.heap := (ihm y).mp hy
          have hys : y ∈ s.heap := hmem1 y hyt
          rcases mem_iff_nthItem.mp hys with ⟨q, hq, hqy⟩
          rw [← hyb, ← hqy]
          exact heapOrder_root_le hw.2.1 q hq
        · intro x
          constructor
          · intro hx
            rcases List.mem_cons.mp hx with hx | hx
            · rw [hx]
              refine nthItem_mem ?_
              rcases Nat.eq_zero_or_pos s.heap.length with h0 | h0
              · exact absurd (List.length_eq_zero.mp h0) hne
              · exact h0
            · exact hmem1 x ((ihm x).mp hx)
          · intro hx
            rcases hmem2 x hx with hx0 | hxt
            · rw [hx0]
              exact List.mem_cons_self _ _
            · exact List.mem_cons_of_mem _ ((ihm x).mpr hxt)
        · rw [List.length_cons, ihl]
          have := DHeap.pop_some_length hp
          omega

/-- Whether an `insertOp` on `s` would succeed (identity not yet present). -/
def insSucc (s : DHeap) : Op → Bool
  | .insertOp it => !(s.contains it)
  | _ => false

/-- Whether a `popOp` on `s` would succeed (heap nonempty). -/
def popSucc (s : DHeap) : Op → Bool
  | .popOp => !s.is_empty
  | _ => false

/-- Run a trace of public calls from `s`; returns the final state together
with the counts of successful inserts and successful pops. -/
def applyTrace (s : DHeap) : List Op → DHeap × Nat × Nat
  | [] => (s, 0, 0)
  | op :: rest =>
      ((applyTrace (s.step op) rest).1,
       (applyTrace (s.step op) rest).2.1 + (if insSucc s op then 1 else 0),
       (applyTrace (s.step op) rest).2.2 + (if popSucc s op then 1 else 0))

theorem DHeap.step_size (s : DHeap) (op : Op) :
    (s.step op).heap.length + (if popSucc s op then 1 else 0) =
      s.heap.length + (if insSucc s op then 1 else 0) := by
  cases op with
  | insertOp it =>
      simp only [insSucc, popSucc]
      by_cases hc : s.contains it = true
      · have herr : s.insert it = .error .duplicateIdentity :=
          (DHeap.insert_error_iff s it).mpr hc
        rw [DHeap.step_insert_error herr]
        simp [hc]
      · have hcf : s.contains it = false := by
          cases hcc : s.contains it
          · rfl
          · exact absurd hcc hc
        cases h : s.insert it with
        | ok t =>
            have hlen := DHeap.insert_length h
            show (match s.insert it with | .ok t => t | .error _ => s).heap.length + 0 = _
            rw [h]
            show t.heap.length + 0 = s.heap.length + (if !s.contains it then 1 else 0)
            simp only [hcf, Bool.not_false, if_pos]
            omega
        | error e =>
            rw [DHeap.insert] at h
            rw [if_neg (by rw [DHeap.contains] at hcf; simp [hcf])] at h
            cases h
  | popOp =>
      simp only [insSucc, popSucc]
      cases hpop : s.pop with
      | mk o t =>
          cases o with
          | none =>
              obtain ⟨hnil, hts⟩ := DHeap.pop_none hpop
              have hemp : s.is_empty = true := by
                rw [DHeap.is_empty, hnil]
                rfl
              show (s.pop).2.heap.length + (if (!s.is_empty) = true then 1 else 0) =
                s.heap.length + (if false = true then 1 else 0)
              rw [hpop]
              simp [hemp, hts]
          | some x =>
              have hlen := DHeap.pop_some_length hpop
              have hne : s.heap ≠ [] := by
                intro hc
                rw [DHeap.pop_empty hc] at hpop
                simp at hpop
              have hemp : s.is_empty = false := by
                rw [DHeap.is_empty]
                simp only [beq_eq_false_iff_ne]
                intro hc
                exact hne (List.length_eq_zero.mp hc)
              show (s.pop).2.heap.length + (if (!s.is_empty) = true then 1 else 0) =
                s.heap.length + (if false = true then 1 else 0)
              rw [hpop]
              simp only [hemp, Bool.not_false, if_pos, if_neg]
              show t.heap.length + 1 = s.heap.length + 0
              omega
  | frontOp => rfl
  | containsOp it => rfl
  | increaseOp it =>
      simp only [insSucc, popSucc]
      show (match s.increase_priority it with | .ok t => t | .error _ => s).heap.length + 0 =
        s.heap.length + 0
      cases h : s.increase_priority it with
      | ok t =>
          have := DHeap.increase_length h
          show t.heap.length + 0 = s.heap.length + 0
          omega
      | error e => rfl
  | decreaseOp it =>
      simp only [insSucc, popSucc]
      show (match s.decrease_priority it with | .ok t => t | .error _ => s).heap.length + 0 =
        s.heap.length + 0
      cases h : s.decrease_priority it with
      | ok t =>
          have := DHeap.decrease_length h
          show t.heap.length + 0 = s.heap.length + 0
          omega
      | error e => rfl

theorem applyTrace_size : ∀ (ops : List Op) (s : DHeap),
    (applyTrace s ops).1.heap.length + (applyTrace s ops).2.2 =
      s.heap.length + (applyTrace s ops).2.1 := by
  intro ops
  induction ops with
  | nil => intro s; rfl
  | cons op rest ih =>
      intro s
      have h1 := ih (s.step op)
      have h2 := DHeap.step_size s op
      show (applyTrace (s.step op) rest).1.heap.length +
          ((applyTrace (s.step op) rest).2.2 + (if popSucc s op then 1 else 0)) =
        s.heap.length + ((applyTrace (s.step op) rest).2.1 + (if insSucc s op then 1 else 0))
      omega

theorem DHeap.init_ok {d : Nat} {s : DHeap} (h : DHeap.init d = .ok s) :
    s.Wf ∧ s.heap.length = 0 ∧ s.d = d := by
  rw [DHeap.init] at h
  by_cases hd : d < 2
  · rw [if_pos hd] at h
    cases h
  · rw [if_neg hd] at h
    rw [← Except.ok.inj h]
    refine ⟨⟨by show 2 ≤ d; omega, ?_, ?_, ?_⟩, rfl, rfl⟩
    · intro j hj hj0
      exact absurd hj (by simp)
    · intro i hi
      exact absurd hi (by simp)
    · intro p hp
      exact absurd hp (by simp)

/-- C1: Heap-order invariant: after any of the six public operations
(insert, pop_min, peek_min, contains, increase_priority, decrease_priority)
completes on a well-formed heap (arity d at least 2, invariants holding),
every non-root position `j` of the backing sequence satisfies
`cost(items[(j-1) div d]) <= cost(items[j])`; failed operations leave the
state unchanged, so the invariant holds after them as well. -/
theorem C1_heap_order_invariant (s : DHeap) (op : Op) (hw : s.Wf) :
    heapOrder (s.step op).d (s.step op).heap :=
  (DHeap.step_wf hw op).2.1

/-- Witness for C1: a concrete well-formed binary heap and an insertion. -/
theorem C1_heap_order_invariant_witness :
    (⟨2, [⟨1, 5⟩, ⟨2, 7⟩, ⟨3, 6⟩], [(1, 0), (2, 1), (3, 2)]⟩ : DHeap).Wf ∧
    heapOrder
      ((⟨2, [⟨1, 5⟩, ⟨2, 7⟩, ⟨3, 6⟩], [(1, 0), (2, 1), (3, 2)]⟩ : DHeap).step
        (.insertOp ⟨4, 1⟩)).d
      ((⟨2, [⟨1, 5⟩, ⟨2, 7⟩, ⟨3, 6⟩], [(1, 0), (2, 1), (3, 2)]⟩ : DHeap).step
        (.insertOp ⟨4, 1⟩)).heap :=
  ⟨by decide, C1_heap_order_invariant _ _ (by decide)⟩

/-- C2: Map-consistency invariant: after any public operation completes on
a well-formed heap, the index map sends the identity of the element at
every position `i` to `i`, and every entry of the index map is keyed by an
identity stored in the backing sequence (so no entry exists for an absent
identity). -/
theorem C2_map_consistency_invariant (s : DHeap) (op : Op) (hw : s.Wf) :
    mapOk (s.step op).heap (s.step op).position_map :=
  (DHeap.step_wf hw op).2.2

/-- Witness for C2: a concrete well-formed binary heap and a pop. -/
theorem C2_map_consistency_invariant_witness :
    (⟨2, [⟨1, 5⟩, ⟨2, 7⟩, ⟨3, 6⟩], [(1, 0), (2, 1), (3, 2)]⟩ : DHeap).Wf ∧
    mapOk
      ((⟨2, [⟨1, 5⟩, ⟨2, 7⟩, ⟨3, 6⟩], [(1, 0), (2, 1), (3, 2)]⟩ : DHeap).step .popOp).heap
      ((⟨2, [⟨1, 5⟩, ⟨2, 7⟩, ⟨3, 6⟩], [(1, 0), (2, 1), (3, 2)]⟩ : DHeap).step
        .popOp).position_map :=
  ⟨by decide, C2_map_consistency_invariant _ _ (by decide)⟩

/-- C3: peek_min contract: `front` is a pure observer of the state (its
type returns only a value and no state, so it performs no structural
mutation); on an empty heap it returns `none`, and on a non-empty
well-formed heap it returns an element of the heap whose cost is a global
minimum over all held elements. -/
theorem C3_peek_min_contract (s : DHeap) (hw : s.Wf) :
    (s.heap = [] → s.front = none) ∧
    (s.heap ≠ [] → ∃ x, s.front = some x ∧ x ∈ s.heap ∧
      ∀ y ∈ s.heap, x.cost ≤ y.cost) := by
  constructor
  · intro h
    unfold DHeap.front
    rw [h]
  · intro hne
    obtain ⟨y, ys, hh⟩ := List.exists_cons_of_ne_nil hne
    have h0 : 0 < s.heap.length := by
      rw [hh]
      simp
    refine ⟨nthItem s.heap 0, ?_, nthItem_mem h0, ?_⟩
    · unfold DHeap.front
      rw [hh]
      simp [nthItem]
    · intro z hz
      rcases mem_iff_nthItem.mp hz with ⟨q, hq, hqz⟩
      rw [← hqz]
      exact heapOrder_root_le hw.2.1 q hq

/-- Witness for C3 at a concrete two-element heap. -/
theorem C3_peek_min_contract_witness :
    (⟨4, [⟨10, 10⟩, ⟨30, 30⟩], [(10, 0), (30, 1)]⟩ : DHeap).Wf ∧
    (((⟨4, [⟨10, 10⟩, ⟨30, 30⟩], [(10, 0), (30, 1)]⟩ : DHeap).heap = [] →
      (⟨4, [⟨10, 10⟩, ⟨30, 30⟩], [(10, 0), (30, 1)]⟩ : DHeap).front = none) ∧
    ((⟨4, [⟨10, 10⟩, ⟨30, 30⟩], [(10, 0), (30, 1)]⟩ : DHeap).heap ≠ [] →
      ∃ x, (⟨4, [⟨10, 10⟩, ⟨30, 30⟩], [(10, 0), (30, 1)]⟩ : DHeap).front = some x ∧
        x ∈ (⟨4, [⟨10, 10⟩, ⟨30, 30⟩], [(10, 0), (30, 1)]⟩ : DHeap).heap ∧
        ∀ y ∈ (⟨4, [⟨10, 10⟩, ⟨30, 30⟩], [(10, 0), (30, 1)]⟩ : DHeap).heap,
          x.cost ≤ y.cost)) :=
  ⟨by decide, C3_peek_min_contract _ (by decide)⟩

/-- C4: Pop ordering: on a well-formed heap, repeatedly calling pop until
the heap is empty yields exactly the held elements (same members and same
count) with costs in non-decreasing order. -/
theorem C4_pop_ordering (s : DHeap) (hw : s.Wf) :
    List.Sorted (· ≤ ·) (s.popAll.map Item.cost) ∧
    (∀ x, x ∈ s.popAll ↔ x ∈ s.heap) ∧ s.popAll.length = s.heap.length :=
  DHeap.popAll_spec s.heap.length s rfl hw

/-- Witness for C4 at a concrete three-element heap. -/
theorem C4_pop_ordering_witness :
    (⟨4, [⟨10, 10⟩, ⟨30, 30⟩, ⟨20, 20⟩], [(10, 0), (30, 1), (20, 2)]⟩ : DHeap).Wf ∧
    (List.Sorted (· ≤ ·)
      (((⟨4, [⟨10, 10⟩, ⟨30, 30⟩, ⟨20, 20⟩],
        [(10, 0), (30, 1), (20, 2)]⟩ : DHeap).popAll).map Item.cost) ∧
    (∀ x, x ∈ (⟨4, [⟨10, 10⟩, ⟨30, 30⟩, ⟨20, 20⟩],
        [(10, 0), (30, 1), (20, 2)]⟩ : DHeap).popAll ↔
      x ∈ (⟨4, [⟨10, 10⟩, ⟨30, 30⟩, ⟨20, 20⟩],
        [(10, 0), (30, 1), (20, 2)]⟩ : DHeap).heap) ∧
    (⟨4, [⟨10, 10⟩, ⟨30, 30⟩, ⟨20, 20⟩],
        [(10, 0), (30, 1), (20, 2)]⟩ : DHeap).popAll.length =
      (⟨4, [⟨10, 10⟩, ⟨30, 30⟩, ⟨20, 20⟩],
        [(10, 0), (30, 1), (20, 2)]⟩ : DHeap).heap.length) :=
  ⟨by decide, C4_pop_ordering _ (by decide)⟩

/-- C5: Priority-change error contract: increase_priority and
decrease_priority fail with notFound exactly when the identity is absent;
increase_priority fails with invalidTransition exactly when the identity
is present with current cost `cur` and the new cost is not strictly below
`cur`; decrease_priority fails with invalidTransition exactly when the new
cost is not strictly above `cur`; and every failing call leaves the state
unchanged. -/
theorem C5_priority_change_error_contract (s : DHeap) (it : Item) :
    (s.increase_priority it = .error .notFound ↔ s.contains it = false) ∧
    (s.decrease_priority it = .error .notFound ↔ s.contains it = false) ∧
    (s.increase_priority it = .error .invalidTransition ↔
      ∃ cur, s.costOf it.number = some cur ∧ ¬ it.cost < cur) ∧
    (s.decrease_priority it = .error .invalidTransition ↔
      ∃ cur, s.costOf it.number = some cur ∧ ¬ cur < it.cost) ∧
    (∀ e, s.increase_priority it = .error e → s.step (.increaseOp it) = s) ∧
    (∀ e, s.decrease_priority it = .error e → s.step (.decreaseOp it) = s) :=
  ⟨(DHeap.increase_error_char s it).1, (DHeap.decrease_error_char s it).1,
   (DHeap.increase_error_char s it).2, (DHeap.decrease_error_char s it).2,
   fun _ h => DHeap.step_increase_error h, fun _ h => DHeap.step_decrease_error h⟩

/-- C6: Duplicate rejection: insert fails with duplicateIdentity exactly
when an element with the same identity is already present, and in that
case the state is left completely unchanged. -/
theorem C6_duplicate_rejection (s : DHeap) (it : Item) :
    (s.insert it = .error .duplicateIdentity ↔ s.contains it = true) ∧
    (s.contains it = true → s.step (.insertOp it) = s) :=
  ⟨DHeap.insert_error_iff s it,
   fun hc => DHeap.step_insert_error ((DHeap.insert_error_iff s it).mpr hc)⟩

/-- C7: Empty-structure absence: on an empty heap, pop returns the absence
result `none` and the unchanged state, front returns `none`, and is_empty
returns true. -/
theorem C7_empty_structure_absence (s : DHeap) (h : s.heap = []) :
    s.pop = (none, s) ∧ s.front = none ∧ s.is_empty = true := by
  refine ⟨DHeap.pop_empty h, ?_, ?_⟩
  · unfold DHeap.front
    rw [h]
  · rw [DHeap.is_empty, h]
    rfl

/-- Witness for C7 at a concrete empty heap. -/
theorem C7_empty_structure_absence_witness :
    (⟨4, [], []⟩ : DHeap).pop = (none, (⟨4, [], []⟩ : DHeap)) ∧
    (⟨4, [], []⟩ : DHeap).front = none ∧
    (⟨4, [], []⟩ : DHeap).is_empty = true :=
  C7_empty_structure_absence _ rfl

/-- C8: Size law: starting from a freshly constructed heap, after running
any trace of public calls in which k inserts and j pops succeed, the size
equals k - j (with j at most k), and is_empty is true exactly when k = j. -/
theorem C8_size_law (d : Nat) (s0 : DHeap) (ops : List Op)
    (h : DHeap.init d = .ok s0) :
    (applyTrace s0 ops).2.2 ≤ (applyTrace s0 ops).2.1 ∧
    (applyTrace s0 ops).1.size =
      (applyTrace s0 ops).2.1 - (applyTrace s0 ops).2.2 ∧
    ((applyTrace s0 ops).1.is_empty = true ↔
      (applyTrace s0 ops).2.1 = (applyTrace s0 ops).2.2) := by
  obtain ⟨hw, hlen, hdd⟩ := DHeap.init_ok h
  have hinv := applyTrace_size ops s0
  rw [hlen] at hinv
  refine ⟨by omega, ?_, ?_⟩
  · rw [DHeap.size]
    omega
  · rw [DHeap.is_empty]
    constructor
    · intro hb
      have h0 : (applyTrace s0 ops).1.heap.length = 0 := by
        simpa using hb
      omega
    · intro he
      have h0 : (applyTrace s0 ops).1.heap.length = 0 := by omega
      simp [h0]

/-- Witness for C8: a fresh binary heap with one insert, one duplicate
insert, two pops. -/
theorem C8_size_law_witness :
    DHeap.init 2 = .ok (⟨2, [], []⟩ : DHeap) ∧
    ((applyTrace (⟨2, [], []⟩ : DHeap)
        [.insertOp ⟨1, 5⟩, .insertOp ⟨1, 9⟩, .popOp, .popOp]).2.2 ≤
      (applyTrace (⟨2, [], []⟩ : DHeap)
        [.insertOp ⟨1, 5⟩, .insertOp ⟨1, 9⟩, .popOp, .popOp]).2.1 ∧
    (applyTrace (⟨2, [], []⟩ : DHeap)
        [.insertOp ⟨1, 5⟩, .insertOp ⟨1, 9⟩, .popOp, .popOp]).1.size =
      (applyTrace (⟨2, [], []⟩ : DHeap)
        [.insertOp ⟨1, 5⟩, .insertOp ⟨1, 9⟩, .popOp, .popOp]).2.1 -
      (applyTrace (⟨2, [], []⟩ : DHeap)
        [.insertOp ⟨1, 5⟩, .insertOp ⟨1, 9⟩, .popOp, .popOp]).2.2 ∧
    ((applyTrace (⟨2, [], []⟩ : DHeap)
        [.insertOp ⟨1, 5⟩, .insertOp ⟨1, 9⟩, .popOp, .popOp]).1.is_empty = true ↔
      (applyTrace (⟨2, [], []⟩ : DHeap)
        [.insertOp ⟨1, 5⟩, .insertOp ⟨1, 9⟩, .popOp, .popOp]).2.1 =
      (applyTrace (⟨2, [], []⟩ : DHeap)
        [.insertOp ⟨1, 5⟩, .insertOp ⟨1, 9⟩, .popOp, .popOp]).2.2)) :=
  ⟨by rfl, C8_size_law 2 _ _ (by rfl)⟩

/-- C9: Round trip: on a well-formed heap, a successful insert of an
element makes contains of that element true immediately afterwards, and
after pop returns an element, contains of that element is false. -/
theorem C9_round_trip (s : DHeap) (hw : s.Wf) :
    (∀ it t, s.insert it = .ok t → t.contains it = true) ∧
    (∀ x t, s.pop = (some x, t) → t.contains x = false) := by
  constructor
  · intro it t h
    have hco := (DHeap.insert_ok hw h).2.2.2.1
    rw [DHeap.contains]
    have hiso := DHeap.costOf_isSome t it.number
    rw [hco] at hiso
    exact hiso.symm
  · intro x t h
    have hne : s.heap ≠ [] := by
      intro hc
      rw [DHeap.pop_empty hc] at h
      simp at h
    obtain ⟨t', hp, hwt, hd, hlen, hmem1, hmem2, hpf⟩ := DHeap.pop_ok hw hne
    rw [hp, Prod.mk.injEq] at h
    obtain ⟨h1, h2⟩ := h
    rw [DHeap.contains, ← h2, ← Option.some.inj h1, hpf]
    rfl

/-- Witness for C9 at a concrete two-element heap. -/
theorem C9_round_trip_witness :
    (⟨2, [⟨1, 5⟩, ⟨2, 7⟩], [(1, 0), (2, 1)]⟩ : DHeap).Wf ∧
    ((∀ it t, (⟨2, [⟨1, 5⟩, ⟨2, 7⟩], [(1, 0), (2, 1)]⟩ : DHeap).insert it = .ok t →
      t.contains it = true) ∧
    (∀ x t, (⟨2, [⟨1, 5⟩, ⟨2, 7⟩], [(1, 0), (2, 1)]⟩ : DHeap).pop = (some x, t) →
      t.contains x = false)) :=
  ⟨by decide, C9_round_trip _ (by decide)⟩

/-- C10: Frame property of priority changes: any successful
increase_priority or decrease_priority call preserves well-formedness, the
arity, the element count, and the set of stored identities; the cost
recorded for every identity other than the target is unchanged, and the
target identity's recorded cost becomes the new cost. -/
theorem C10_priority_change_frame (s : DHeap) (it : Item) (hw : s.Wf) :
    ∀ t, (s.increase_priority it = .ok t ∨ s.decrease_priority it = .ok t) →
      t.Wf ∧ t.d = s.d ∧ t.heap.length = s.heap.length ∧
      (∀ k, (pfind t.position_map k).isSome = (pfind s.position_map k).isSome) ∧
      (∀ k, k ≠ it.number → t.costOf k = s.costOf k) ∧
      t.costOf it.number = some it.cost := by
  intro t h
  rcases h with h | h
  · exact DHeap.increase_ok hw h
  · exact DHeap.decrease_ok hw h

/-- Witness for C10 at a concrete two-element heap. -/
theorem C10_priority_change_frame_witness :
    (⟨2, [⟨1, 5⟩, ⟨2, 7⟩], [(1, 0), (2, 1)]⟩ : DHeap).Wf ∧
    (∀ t, ((⟨2, [⟨1, 5⟩, ⟨2, 7⟩], [(1, 0), (2, 1)]⟩ : DHeap).increase_priority ⟨2, 1⟩ =
          .ok t ∨
        (⟨2, [⟨1, 5⟩, ⟨2, 7⟩], [(1, 0), (2, 1)]⟩ : DHeap).decrease_priority ⟨2, 1⟩ =
          .ok t) →
      t.Wf ∧ t.d = (⟨2, [⟨1, 5⟩, ⟨2, 7⟩], [(1, 0), (2, 1)]⟩ : DHeap).d ∧
      t.heap.length = (⟨2, [⟨1, 5⟩, ⟨2, 7⟩], [(1, 0), (2, 1)]⟩ : DHeap).heap.length ∧
      (∀ k, (pfind t.position_map k).isSome =
        (pfind (⟨2, [⟨1, 5⟩, ⟨2, 7⟩], [(1, 0), (2, 1)]⟩ : DHeap).position_map k).isSome) ∧
      (∀ k, k ≠ (2 : Int) → t.costOf k =
        (⟨2, [⟨1, 5⟩, ⟨2, 7⟩], [(1, 0), (2, 1)]⟩ : DHeap).costOf k) ∧
      t.costOf 2 = some 1) :=
  ⟨by decide, C10_priority_change_frame _ ⟨2, 1⟩ (by decide)⟩

end DaryHeap
